import Mathlib

/-!
Verification of the BatSAT constraint-solving engine (`src/index.ts`,
`src/Solution.ts`, `src/attrs-and-props.ts`) against its natural-language
specification.  The TypeScript code is shallowly embedded: JavaScript numbers
appearing in the user-facing API are modelled as rationals, the clause store
and registry as lists, and every method of `Problem` as a pure function from
a `ProblemState` to a `ProblemState` paired with an optional error (a thrown
JS exception leaves all mutations made before the throw in place, which the
explicit state threading mirrors).  Randomness (`Math.random()`) is modelled
as an explicit stream of rationals that the search consumes in program order.
-/

namespace BatSAT

/-! ## Identifiers and the attribute registry (`attrs-and-props.ts`) -/

/-- Character class check for the identifier grammar. -/
def identChar (c : Char) : Bool :=
  (('a' ≤ c ∧ c ≤ 'z') ∨ ('A' ≤ c ∧ c ≤ 'Z') ∨ ('0' ≤ c ∧ c ≤ '9') ∨ c = '_' : Bool)

/-- The regular expression IDENT_REGEX from the source:
lowercase letter followed by alphanumerics and underscores. -/
def isIdent (s : String) : Bool :=
  match s.toList with
  | [] => false
  | c :: cs => (('a' ≤ c ∧ c ≤ 'z' : Bool)) && cs.all identChar

/-- Association-list lookup, modelling a JS object property read. -/
def alookup (k : String) : List (String × α) → Option α
  | [] => none
  | (k2, v) :: rest => if k = k2 then some v else alookup k rest

/-- Association-list write, modelling a JS object property write:
overwrite in place if the key exists, otherwise append. -/
def aset (k : String) (v : α) : List (String × α) → List (String × α)
  | [] => [(k, v)]
  | (k2, v2) :: rest => if k = k2 then (k, v) :: rest else (k2, v2) :: aset k v rest

/-- JS truthiness applied to a stored internal attribute id: an id of 0 would
be falsy, so the source's presence checks treat it like an absent entry.
(Ids minted by the engine are always at least 1.) -/
def jsGet (o : Option Nat) : Option Nat :=
  match o with
  | some 0 => none
  | x => x

/-- Maps of a one-argument predicate: argument to internal id. -/
abbrev Map1 := List (String × Nat)

/-- Maps of a two-argument predicate. -/
abbrev Map2 := List (String × Map1)

/-- Maps of a three-argument predicate. -/
abbrev Map3 := List (String × Map2)

/-- The per-predicate slot of the registry: one nested map per arity 0..3,
mirroring the four-element array the source stores under each name. -/
structure ArityEntry where
  a0 : Option Nat
  a1 : Option Map1
  a2 : Option Map2
  a3 : Option Map3
deriving Repr

instance : DecidableEq ArityEntry := fun a b =>
  decidable_of_iff (a.a0 = b.a0 ∧ a.a1 = b.a1 ∧ a.a2 = b.a2 ∧ a.a3 = b.a3)
    (by cases a; cases b; simp)

/-- The registry from attribute names to internal attributes
(the `toInternal` field of a `Problem`). -/
abbrev AttributeMap := List (String × ArityEntry)

/-- The test `attributeMap.every((x) => x === undefined)` from the source. -/
def ArityEntry.allUndefined (e : ArityEntry) : Bool :=
  e.a0 = none ∧ e.a1 = none ∧ e.a2 = none ∧ e.a3 = none

/-- The arity-dispatch tail of `lookupAttributeInMap`, after the predicate
entry has been found and the name and arguments have passed the grammar. -/
def lookupArity (entry : ArityEntry) (args : List String) : Except String Nat :=
  match args with
  | [] =>
    match jsGet entry.a0 with
    | none => .error "wrong arity"
    | some id => .ok id
  | [x] =>
    match entry.a1 with
    | none => .error "wrong arity"
    | some m =>
      match jsGet (alookup x m) with
      | none => .error "invalid argument 1"
      | some id => .ok id
  | [x, y] =>
    match entry.a2 with
    | none => .error "wrong arity"
    | some m =>
      match alookup x m with
      | none => .error "invalid argument 1"
      | some m2 =>
        match jsGet (alookup y m2) with
        | none => .error "invalid argument 2"
        | some id => .ok id
  | [x, y, z] =>
    match entry.a3 with
    | none => .error "wrong arity"
    | some m =>
      match alookup x m with
      | none => .error "invalid argument 1"
      | some m2 =>
        match alookup y m2 with
        | none => .error "invalid argument 2"
        | some m3 =>
          match jsGet (alookup z m3) with
          | none => .error "invalid argument 3"
          | some id => .ok id
  | _ => .error "cannot handle arity above 3"

/-- Split a character list at every space, the semantics of the JS
`attribute.split(' ')` (consecutive spaces produce empty pieces). -/
def splitSpaces : List Char → List (List Char)
  | [] => [[]]
  | c :: cs =>
    if c = ' ' then [] :: splitSpaces cs
    else
      match splitSpaces cs with
      | [] => [[c]]
      | w :: ws => (c :: w) :: ws

/-- The JS `attribute.split(' ')`. -/
def splitOnSpaces (s : String) : List String :=
  (splitSpaces s.toList).map (fun w => String.mk w)

/-- The body of `lookupAttributeInMap` after the split on spaces: validate
the predicate and arguments against the identifier grammar, find the
predicate entry and dispatch on arity. -/
def lookupParts (map : AttributeMap) : List String → Except String Nat
  | [] => .error "empty attribute"
  | predicate :: args =>
    if ¬ isIdent predicate then
      .error "predicate is not a well-formed predicate"
    else if args.any (fun arg => ¬ isIdent arg) then
      .error "argument is not a well-formed argument"
    else
      match alookup predicate map with
      | none => .error "no such predicate declared"
      | some entry =>
        if entry.allUndefined then .error "no such predicate declared"
        else lookupArity entry args

/-- The function `lookupAttributeInMap` of `attrs-and-props.ts`: split the
textual attribute on spaces, then validate and dispatch. -/
def lookupAttributeInMap (attr : String) (map : AttributeMap) : Except String Nat :=
  lookupParts map (splitOnSpaces attr)

/-! ## The clause store and problem state (`index.ts`) -/

/-- A generalized cardinality clause: between `lo` and `hi` (inclusive) of
the literals in `clause` must be satisfied.  Literals are signed internal
attribute ids; the literal 0 reads the always-true slot of the assignment. -/
structure Constraint where
  lo : Int
  hi : Int
  clause : List Int
deriving DecidableEq, Repr

/-- The mutable state of a `Problem`.  The rule-justification map `rules`
is a JS object keyed by integer-like strings; JS enumerates such keys in
ascending numeric order, so it is modelled as an association list kept
sorted by head (see `addJust`). -/
structure ProblemState where
  fromInternal : List String
  toInternal : AttributeMap
  constraints : List Constraint
  rules : List (Nat × List Int)
  nonRuleConstraints : Option Nat
deriving Repr

instance : DecidableEq ProblemState := fun a b =>
  decidable_of_iff
    (a.fromInternal = b.fromInternal ∧ a.toInternal = b.toInternal ∧
      a.constraints = b.constraints ∧ a.rules = b.rules ∧
      a.nonRuleConstraints = b.nonRuleConstraints)
    (by cases a; cases b; simp)

/-- A freshly constructed `Problem`: one reserved id 0 with the empty name. -/
def initialProblem : ProblemState :=
  { fromInternal := [""]
    toInternal := []
    constraints := []
    rules := []
    nonRuleConstraints := none }

/-- The private `reset()` method: truncate the clause list back to the
checkpoint if one is set, and clear the checkpoint. -/
def ProblemState.reset (s : ProblemState) : ProblemState :=
  match s.nonRuleConstraints with
  | some k => { s with constraints := s.constraints.take k, nonRuleConstraints := none }
  | none => { s with nonRuleConstraints := none }

/-- The private `generate()` method: mint the next internal attribute id
(the current length of `fromInternal`) and record its name (the empty
string for solver-internal temporaries). -/
def ProblemState.generate (s : ProblemState) (name : String) : Nat × ProblemState :=
  (s.fromInternal.length, { s with fromInternal := s.fromInternal ++ [name] })

/-- The private `lookup()` method of `Problem`: a leading `!` negates the
internal id found in the registry. -/
def plookup (map : AttributeMap) (prop : String) : Except String Int :=
  match prop.toList with
  | '!' :: rest => (lookupAttributeInMap (String.mk rest) map).map (fun id => -(id : Int))
  | _ => (lookupAttributeInMap prop map).map (fun id => (id : Int))

/-- Resolve a list of propositions left to right, stopping at the first
failure, mirroring `propositions.map((arg) => this.lookup(arg))`. -/
def resolveAll (map : AttributeMap) : List String → Except String (List Int)
  | [] => .ok []
  | p :: ps =>
    match plookup map p with
    | .error e => .error e
    | .ok l =>
      match resolveAll map ps with
      | .error e => .error e
      | .ok ls => .ok (l :: ls)

/-! ## Constraint-adding operations

Each method is a function from the problem state to the state paired with
an optional error message.  On an error the returned state is the state at
the moment the source would have thrown (mutations made before the throw
persist). -/

/-- The `quantify(min, max, propositions)` method.  Bounds are JS numbers,
modelled as rationals; the stored clause bounds are the clamped
ceiling/floor, which are integers. -/
def ProblemState.quantify (s : ProblemState) (mn mx : ℚ) (props : List String) :
    ProblemState × Option String :=
  if ¬ (0 ≤ mx ∧ ⌈mn⌉ ≤ ⌊mx⌋ ∧ mn ≤ (props.length : ℚ)) then
    (s, some "quantify is unsatisfiable")
  else if mn ≤ 0 ∧ (props.length : ℚ) ≤ mx then
    (s, some "quantify is always trivially satisfied")
  else
    match resolveAll s.toInternal props with
    | .error e => (s, some e)
    | .ok clause =>
      let s := s.reset
      ({ s with
          constraints := s.constraints ++
            [{ lo := max 0 ⌈mn⌉, hi := min (props.length : Int) ⌊mx⌋, clause := clause }] },
        none)

/-- The `exactly(n, propositions)` method.  `Math.round` agrees with
Mathlib's `round` (ties to the larger value) and is only compared with `n`
itself, so any integrality test would do. -/
def ProblemState.exactly (s : ProblemState) (n : ℚ) (props : List String) :
    ProblemState × Option String :=
  if ¬ (0 ≤ n ∧ n ≤ (props.length : ℚ) ∧ (round n : ℚ) = n) then
    (s, some "exactly is unsatisfiable")
  else if props.length = 0 then
    (s, some "exactly(0, []) is always trivially satisfied")
  else
    s.quantify n n props

/-- The `all(propositions)` method. -/
def ProblemState.all (s : ProblemState) (props : List String) :
    ProblemState × Option String :=
  if props.length = 0 then
    (s, some "all([]) is always trivially satisfied")
  else
    s.quantify (props.length : ℚ) (props.length : ℚ) props

/-- The `atLeast(min, propositions)` method.  Note that, unlike `exactly`,
it performs no integrality check on `min`. -/
def ProblemState.atLeast (s : ProblemState) (mn : ℚ) (props : List String) :
    ProblemState × Option String :=
  if (props.length : ℚ) < mn then
    (s, some "atLeast is unsatisfiable")
  else if mn ≤ 0 then
    (s, some "atLeast(0, args) always trivially satisfied")
  else
    s.quantify mn (props.length : ℚ) props

/-- The `atMost(max, propositions)` method. -/
def ProblemState.atMost (s : ProblemState) (mx : ℚ) (props : List String) :
    ProblemState × Option String :=
  if mx < 0 then
    (s, some "atMost is unsatisfiable")
  else if (props.length : ℚ) ≤ mx then
    (s, some "atMost is always trivially satisfied")
  else
    s.quantify 0 mx props

/-- The `unique(propositions)` method. -/
def ProblemState.unique (s : ProblemState) (props : List String) :
    ProblemState × Option String :=
  if props.length = 0 then
    (s, some "unique([]) is unsatisfiable")
  else
    s.quantify 1 1 props

/-- The `inconsistent(a, b)` method. -/
def ProblemState.inconsistent (s : ProblemState) (a b : String) :
    ProblemState × Option String :=
  s.atMost 1 [a, b]

/-- The `implies(premises, conclusion)` method: a single CNF clause with the
premises negated. -/
def ProblemState.implies (s : ProblemState) (premises : List String) (conclusion : String) :
    ProblemState × Option String :=
  match plookup s.toInternal conclusion with
  | .error e => (s, some e)
  | .ok conc =>
    match resolveAll s.toInternal premises with
    | .error e => (s, some e)
    | .ok prems =>
      let clause := prems.map (fun p => -p) ++ [conc]
      let s := s.reset
      ({ s with
          constraints := s.constraints ++
            [{ lo := 1, hi := (clause.length : Int), clause := clause }] },
        none)

/-- The private `iff()` helper: the conclusion implies each premise, and the
premises jointly imply the conclusion.  It never fails and never resets. -/
def ProblemState.iff (s : ProblemState) (premises : List Int) (conclusion : Int) :
    ProblemState :=
  let s :=
    { s with
        constraints := s.constraints ++
          premises.map (fun premise =>
            ({ lo := 1, hi := 2, clause := [premise, -conclusion] } : Constraint)) }
  let clause := premises.map (fun p => -p) ++ [conclusion]
  { s with
      constraints := s.constraints ++
        [{ lo := 1, hi := (clause.length : Int), clause := clause }] }

/-- The `equal(a, b)` method, with the source's evaluation order: the length
dispatch first, then `reset()`, then (in the two-conjunction case) the mint
of the hidden stand-in before any proposition is resolved. -/
def ProblemState.equal (s : ProblemState) (a b : List String) :
    ProblemState × Option String :=
  if a.length = 0 ∧ b.length = 0 then
    (s, some "equal of two empty lists is vacuous")
  else if a.length = 0 then
    s.all b
  else if b.length = 0 then
    s.all a
  else
    let s := s.reset
    if a.length = 1 then
      if b.length = 1 then
        match plookup s.toInternal (a.headD "") with
        | .error e => (s, some e)
        | .ok literalA =>
          match plookup s.toInternal (b.headD "") with
          | .error e => (s, some e)
          | .ok literalB =>
            ({ s with
                constraints := s.constraints ++
                  [{ lo := 1, hi := 2, clause := [literalA, -literalB] },
                   { lo := 1, hi := 2, clause := [-literalA, literalB] }] },
              none)
      else
        match resolveAll s.toInternal b with
        | .error e => (s, some e)
        | .ok premises =>
          match plookup s.toInternal (a.headD "") with
          | .error e => (s, some e)
          | .ok conclusion => (s.iff premises conclusion, none)
    else
      if b.length = 1 then
        match resolveAll s.toInternal a with
        | .error e => (s, some e)
        | .ok premises =>
          match plookup s.toInternal (b.headD "") with
          | .error e => (s, some e)
          | .ok conclusion => (s.iff premises conclusion, none)
      else
        match s.generate "" with
        | (hiddenPred, s) =>
          match resolveAll s.toInternal a with
          | .error e => (s, some e)
          | .ok conjunctA =>
            match resolveAll s.toInternal b with
            | .error e => (s, some e)
            | .ok conjunctB =>
              (((s.iff conjunctA (hiddenPred : Int)).iff conjunctB (hiddenPred : Int)), none)

/-- The `assert(a)` method. -/
def ProblemState.assert (s : ProblemState) (a : String) : ProblemState × Option String :=
  s.all [a]

/-- Record a justification under a rule head.  The source stores rule
justifications in a JS object keyed by the head id; JS enumerates
integer-like keys in ascending numeric order, so the model keeps the list
sorted by head and appends to the justification list of an existing head. -/
def addJust (head : Nat) (j : Int) : List (Nat × List Int) → List (Nat × List Int)
  | [] => [(head, [j])]
  | (h, js) :: rest =>
    if head = h then (h, js ++ [j]) :: rest
    else if head < h then (head, [j]) :: (h, js) :: rest
    else (h, js) :: addJust head j rest

/-- The `rule(conclusion, premises)` method: reject a negated head, emit the
implication, then record the justification (the literal 0 for no premises,
the premise itself for one, a freshly minted stand-in with an `iff` encoding
for several). -/
def ProblemState.rule (s : ProblemState) (conclusion : String) (premises : List String) :
    ProblemState × Option String :=
  match plookup s.toInternal conclusion with
  | .error e => (s, some e)
  | .ok conc =>
    match resolveAll s.toInternal premises with
    | .error e => (s, some e)
    | .ok prems =>
      if conc < 0 then
        (s, some "conclusion of a rule must not be negated")
      else
        match s.implies premises conclusion with
        | (s1, some e) => (s1, some e)
        | (s1, none) =>
          if premises.length = 0 then
            ({ s1 with rules := addJust conc.toNat 0 s1.rules }, none)
          else if premises.length = 1 then
            ({ s1 with rules := addJust conc.toNat (prems.headD 0) s1.rules }, none)
          else
            match s1.generate "" with
            | (standin, s2) =>
              let s3 := s2.iff prems (standin : Int)
              ({ s3 with rules := addJust conc.toNat (standin : Int) s3.rules }, none)

/-! ## Attribute declaration (`attribute()` and its eager grounding) -/

/-- Mint one id per element of a domain, naming each `base x`
(the `${name} ${x}` template of the source). -/
def mintAll1 (s : ProblemState) (base : String) : List String → Map1 × ProblemState
  | [] => ([], s)
  | x :: xs =>
    match s.generate (base ++ " " ++ x) with
    | (id, s) =>
      match mintAll1 s base xs with
      | (m, s) => ((x, id) :: m, s)

/-- Mint the nested map of a two-argument predicate. -/
def mintAll2 (s : ProblemState) (base : String) (dom2 : List String) :
    List String → Map2 × ProblemState
  | [] => ([], s)
  | x :: xs =>
    match mintAll1 s (base ++ " " ++ x) dom2 with
    | (inner, s) =>
      match mintAll2 s base dom2 xs with
      | (m, s) => ((x, inner) :: m, s)

/-- Mint the nested map of a three-argument predicate. -/
def mintAll3 (s : ProblemState) (base : String) (dom2 dom3 : List String) :
    List String → Map3 × ProblemState
  | [] => ([], s)
  | x :: xs =>
    match mintAll2 s (base ++ " " ++ x) dom3 dom2 with
    | (inner, s) =>
      match mintAll3 s base dom2 dom3 xs with
      | (m, s) => ((x, inner) :: m, s)

/-- The body of the arity switch of `attribute()`: mint one id per point of
the domain product and store the nested map under the declared name. -/
def ProblemState.attributeCore (s : ProblemState) (name : String)
    (args : List (List String)) : ProblemState × Option String :=
  match args.length with
  | 0 =>
    match s.generate name with
    | (id, s) =>
      ({ s with toInternal := aset name ⟨some id, none, none, none⟩ s.toInternal }, none)
  | 1 =>
    match mintAll1 s name (args.headD []) with
    | (m, s) =>
      ({ s with toInternal := aset name ⟨none, some m, none, none⟩ s.toInternal }, none)
  | 2 =>
    match mintAll2 s name (args.getD 1 []) (args.headD []) with
    | (m, s) =>
      ({ s with toInternal := aset name ⟨none, none, some m, none⟩ s.toInternal }, none)
  | _ =>
    match mintAll3 s name (args.getD 1 []) (args.getD 2 []) (args.headD []) with
    | (m, s) =>
      ({ s with toInternal := aset name ⟨none, none, none, some m⟩ s.toInternal }, none)

/-- The `attribute(name, args)` method: arity and grammar checks, the
redeclaration check (a present entry with any defined arity slot throws),
then the eager minting of the declared domain product. -/
def ProblemState.attribute (s : ProblemState) (name : String) (args : List (List String)) :
    ProblemState × Option String :=
  let arity := args.length
  if 4 ≤ arity then
    (s, some "no current support for this arity")
  else if ¬ isIdent name then
    (s, some "predicate name must start with a lowercase letter")
  else if args.any (fun domain => domain.any (fun member => ¬ isIdent member)) then
    (s, some "domain element must start with a lowercase letter")
  else
    match alookup name s.toInternal with
    | some entry =>
      if entry.allUndefined then s.attributeCore name args
      else (s, some "cannot redeclare a predicate")
    | none => s.attributeCore name args

/-! ## The scoring pass (`satisfies`) -/

/-- The explicit stream of `Math.random()` results: a function from draw
index to a rational, plus the index of the next draw. -/
structure RNG where
  vals : ℕ → ℚ
  idx : ℕ

/-- Draw the next random value. -/
def RNG.next (r : RNG) : ℚ × RNG :=
  (r.vals r.idx, { r with idx := r.idx + 1 })

/-- Every value the stream can produce lies in the interval `Math.random()`
draws from. -/
def validRNG (r : RNG) : Prop :=
  ∀ n, 0 ≤ r.vals n ∧ r.vals n < 1

/-- The literal-valuation helper `lookup(assignment, literal)` of the
source: a negative literal reads the negation of its atom, any other
literal (including 0) reads its atom directly.  Reads beyond the end of the
array give `undefined`, which is falsy, hence the `false` default. -/
def litLookup (assignment : List Bool) (literal : Int) : Bool :=
  if literal < 0 then !(assignment.getD (-literal).toNat false)
  else assignment.getD literal.toNat false

/-- The satisfied-literal count of one clause
(`clause.reduce((accum, literal) => ...)`). -/
def clauseCount (assignment : List Bool) (clause : List Int) : ℕ :=
  clause.foldl (fun accum literal => if litLookup assignment literal then accum + 1 else accum) 0

/-- Whether one clause is within its band under an assignment. -/
def clauseOK (assignment : List Bool) (c : Constraint) : Bool :=
  c.lo ≤ (clauseCount assignment c.clause : Int) ∧ (clauseCount assignment c.clause : Int) ≤ c.hi

/-- The number of satisfied clauses accumulated by the scoring pass. -/
def countSatisfied (constraints : List Constraint) (assignment : List Bool) : ℕ :=
  constraints.countP (fun c => clauseOK assignment c)

/-- Add `d` to position `i` of the score vector; out-of-range writes are
dropped (in JS they create scores beyond the vector that the selection loop
reads as `NaN` and never selects, so they are unobservable). -/
def bump (m : List Int) (i : ℕ) (d : Int) : List Int :=
  m.set i (m.getD i 0 + d)

/-- The per-clause score contribution of the scoring pass: `-1` to every
atom whose flip would leave a satisfied clause sitting on a boundary of its
band, `+1` to every atom whose flip would bring a violated clause that is
exactly one off a boundary into the band. -/
def scoreClause (assignment : List Bool) (m : List Int) (c : Constraint) : List Int :=
  let cnt : Int := (clauseCount assignment c.clause : Int)
  if c.lo ≤ cnt ∧ cnt ≤ c.hi then
    let m :=
      if c.lo = cnt then
        c.clause.foldl
          (fun m literal =>
            if litLookup assignment literal then bump m literal.natAbs (-1) else m) m
      else m
    if c.hi = cnt then
      c.clause.foldl
        (fun m literal =>
          if !(litLookup assignment literal) then bump m literal.natAbs (-1) else m) m
    else m
  else
    let m :=
      if cnt = c.lo - 1 then
        c.clause.foldl
          (fun m literal =>
            if !(litLookup assignment literal) then bump m literal.natAbs 1 else m) m
      else m
    if cnt = c.hi + 1 then
      c.clause.foldl
        (fun m literal =>
          if litLookup assignment literal then bump m literal.natAbs 1 else m) m
    else m

/-- The full score vector (`suggestionMap`), one pass over all clauses
starting from all zeroes. -/
def suggestionScores (constraints : List Constraint) (assignment : List Bool) : List Int :=
  constraints.foldl (scoreClause assignment) (assignment.map (fun _ => 0))

/-- The candidate-selection loop of `satisfies`.  It mirrors the source
exactly: `bestNum` is initialized to 0 and — as the source does — never
updated, so an atom with a positive score replaces the accumulated list
outright and an atom whose score equals the baseline 0 is appended. -/
def bestCandidates (m : List Int) : List Nat :=
  let bestNum : Int := 0
  (List.range' 1 (m.length - 1)).foldl
    (fun best i =>
      let best := if m.getD i 0 = bestNum then best ++ [i] else best
      if bestNum < m.getD i 0 then [i] else best)
    []

/-- A JS array read at a possibly negative index: any index outside
`[0, length)` gives `undefined`. -/
def jsIndex (l : List α) (i : Int) : Option α :=
  if i < 0 then none else l.get? i.toNat

/-- Rational multiplication, written out on numerators and denominators so
that concrete runs of the solver reduce inside the kernel (the library
multiplication is sealed).  `ratMul_eq` identifies it with `*`. -/
def ratMul (a b : ℚ) : ℚ := mkRat (a.num * b.num) (a.den * b.den)

theorem ratMul_eq (a b : ℚ) : ratMul a b = a * b := by
  rw [ratMul, Rat.mkRat_eq_div]
  push_cast
  rw [← div_mul_div_comm, Rat.num_div_den, Rat.num_div_den]

/-- The `satisfies(assignment)` method.  `none` means every clause is
satisfied; otherwise the satisfied-clause count is paired with the chosen
suggestion (which is `undefined`, modelled as `none`, when the candidate
list is empty).  The random tie-break draw happens only on the unsatisfied
path, as in the source. -/
def satisfies (constraints : List Constraint) (assignment : List Bool) (rng : RNG) :
    Option (ℕ × Option ℕ) × RNG :=
  let clausesSatisfied := countSatisfied constraints assignment
  if clausesSatisfied = constraints.length then (none, rng)
  else
    let best := bestCandidates (suggestionScores constraints assignment)
    let step := rng.next
    (some (clausesSatisfied, jsIndex best ⌊ratMul step.1 (best.length : ℚ)⌋), step.2)

/-! ## The search loop and `solve()` -/

/-- The greedy flip `assignment[result.suggestion] = !assignment[...]`.
When the suggestion is `undefined` the write lands on the string property
`"undefined"` of the JS array, leaving every numeric index unchanged, which
the `none` branch mirrors. -/
def greedyFlip (assignment : List Bool) (suggestion : Option ℕ) : List Bool :=
  match suggestion with
  | none => assignment
  | some i => assignment.set i (!(assignment.getD i false))

/-- A flip at a JS-computed index.  A negative index writes a non-numeric
property (no numeric index changes); `List.set` already ignores writes at or
beyond the length (reachable problem states never produce one). -/
def flipAt (assignment : List Bool) (i : Int) : List Bool :=
  if i < 0 then assignment
  else assignment.set i.toNat (!(assignment.getD i.toNat false))

/-- The random initialization `fromInternal.map(() => Math.random() >= 0.5)`. -/
def drawBools : ℕ → RNG → List Bool × RNG
  | 0, rng => ([], rng)
  | n + 1, rng =>
    match rng.next with
    | (q, rng) =>
      match drawBools n rng with
      | (rest, rng) => ((decide (mkRat 1 2 ≤ q)) :: rest, rng)

/-- One completion pass of `solve()`: when no checkpoint is set, record the
current clause count as the checkpoint and append, for every rule head, the
iff-completion clause `(1, k + 1, [-head, j_1, ..., j_k])`; when a
checkpoint is already set, do nothing. -/
def mkCompletion (e : Nat × List Int) : Constraint :=
  { lo := 1, hi := (e.2.length : Int) + 1, clause := -(e.1 : Int) :: e.2 }

/-- The completion clauses appended for the rule map. -/
def completionClauses (rules : List (Nat × List Int)) : List Constraint :=
  rules.map mkCompletion

/-- The state effect of the head of `solve()`. -/
def applyCompletion (s : ProblemState) : ProblemState :=
  match s.nonRuleConstraints with
  | none =>
    { s with
        nonRuleConstraints := some s.constraints.length
        constraints := s.constraints ++ completionClauses s.rules }
  | some _ => s

/-- The flip-search loop of `solve()`, recursing on the failsafe counter.
The source decrements the counter at the end of each body and throws when it
reaches 0; a call with counter value 1 therefore throws after its flip.
(The source would loop without bound if it were started at counter 0, which
`solve` never does; the model reports the same timeout there.) -/
def solveLoop (constraints : List Constraint) (wsize : ℕ) :
    ℕ → List Bool → ℚ → List ℕ → ℕ → RNG → Option (ℕ × Option ℕ) →
    Except String (List Bool)
  | _, assignment, _, _, _, _, none => .ok assignment
  | 0, _, _, _, _, _, some _ => .error "Timeout"
  | failsafe + 1, assignment, noise, window, iteration, rng, some result =>
    let step := rng.next
    let flip :=
      if noise < step.1 then (greedyFlip assignment result.2, step.2)
      else
        let step2 := step.2.next
        (flipAt assignment (1 + ⌊step2.1 * ((assignment.length : ℚ) - 1)⌋), step2.2)
    let assignment2 := flip.1
    let noise2 :=
      if window.all (fun c => result.1 ≤ c) then noise + (1 - noise) * (2 / 10)
      else noise - noise * (5 / 100)
    let window2 := window.set (iteration % wsize) result.1
    let next := satisfies constraints assignment2 flip.2
    if failsafe = 0 then .error "Timeout"
    else
      solveLoop constraints wsize failsafe assignment2 noise2 window2
        (iteration + 1) next.2 next.1

/-- The `solve()` method: apply rule completion behind the checkpoint, draw
a random total assignment with slot 0 pinned to true, set up the sliding
window of size `max(3, ceil(C / 6))`, and run the flip-search loop with the
50000-iteration failsafe.  The returned assignment is the solution
snapshot. -/
def ProblemState.solve (s : ProblemState) (rng : RNG) :
    Except String (List Bool) × ProblemState :=
  let s2 := applyCompletion s
  let draw := drawBools s2.fromInternal.length rng
  let assignment := draw.1.set 0 true
  let wsize := max 3 ((s2.constraints.length + 5) / 6)
  let start := satisfies s2.constraints assignment draw.2
  (solveLoop s2.constraints wsize 50000 assignment 0 (List.replicate wsize 0) 0
      start.2 start.1,
    s2)

/-! ## Solutions (`Solution.ts`) -/

/-- A returned solution: the snapshot of the satisfying assignment and of
the id-to-name vector.  (The source captures live references, but
`fromInternal` is append-only and a solution only reads the prefix that
existed when it was produced, so the snapshot view is equivalent.) -/
structure Solution where
  satisfyingAssignment : List Bool
  fromInternal : List String
deriving Repr

/-- Insert into a sorted list of strings (ascending). -/
def insertSorted (x : String) : List String → List String
  | [] => [x]
  | y :: ys => if x ≤ y then x :: y :: ys else y :: insertSorted x ys

/-- JS `Array.prototype.sort()` on strings: ascending lexicographic order
on UTF-16 code units, which for these names coincides with `String` order. -/
def sortStrings (l : List String) : List String :=
  l.foldr insertSorted []

/-- The `trueAttributes` getter: indices assigned true, excluding the
reserved id 0, mapped to their names, with the anonymous (empty) names
filtered out, sorted. -/
def Solution.trueAttributes (sol : Solution) : List String :=
  sortStrings
    ((((List.range sol.satisfyingAssignment.length).filter
          (fun i => sol.satisfyingAssignment.getD i false ∧ 0 < i)).map
        (fun i => sol.fromInternal.getD i "")).filter (fun x => ¬ x = ""))

/-- The `lookup` proxy of a Solution.  It resolves the attribute against the
problem's live registry (`toInternal` is captured by reference) and rejects
ids at or beyond the snapshot length — exactly the ids minted after the
solution was produced. -/
def Solution.lookupVal (sol : Solution) (toInternal : AttributeMap) (attr : String) :
    Except String Bool :=
  match lookupAttributeInMap attr toInternal with
  | .error e => .error e
  | .ok internal =>
    if sol.satisfyingAssignment.length ≤ internal then
      .error "attribute was defined after this solution was generated"
    else .ok (sol.satisfyingAssignment.getD internal false)

/-! ## The public operations as data, for reachability and evolution -/

/-- One public call on a `Problem`.  `solveOp` stands for the state effect
of `solve()` (the completion pass); the search itself does not mutate the
problem. -/
inductive Op where
  | attributeOp (name : String) (args : List (List String))
  | quantifyOp (mn mx : ℚ) (props : List String)
  | exactlyOp (n : ℚ) (props : List String)
  | allOp (props : List String)
  | atLeastOp (mn : ℚ) (props : List String)
  | atMostOp (mx : ℚ) (props : List String)
  | uniqueOp (props : List String)
  | inconsistentOp (a b : String)
  | impliesOp (premises : List String) (conclusion : String)
  | equalOp (a b : List String)
  | assertOp (p : String)
  | ruleOp (conclusion : String) (premises : List String)
  | solveOp

/-- Apply one operation to a problem state.  The state component is the
state after the call whether or not it threw. -/
def Op.apply : Op → ProblemState → ProblemState × Option String
  | .attributeOp name args, s => s.attribute name args
  | .quantifyOp mn mx props, s => s.quantify mn mx props
  | .exactlyOp n props, s => s.exactly n props
  | .allOp props, s => s.all props
  | .atLeastOp mn props, s => s.atLeast mn props
  | .atMostOp mx props, s => s.atMost mx props
  | .uniqueOp props, s => s.unique props
  | .inconsistentOp a b, s => s.inconsistent a b
  | .impliesOp premises conclusion, s => s.implies premises conclusion
  | .equalOp a b, s => s.equal a b
  | .assertOp p, s => s.assert p
  | .ruleOp conclusion premises, s => s.rule conclusion premises
  | .solveOp, s => (applyCompletion s, none)

/-- Run a sequence of operations, keeping the state across thrown errors
(a caller that catches an exception keeps using the same `Problem`). -/
def applyOps : List Op → ProblemState → ProblemState
  | [], s => s
  | op :: ops, s => applyOps ops (op.apply s).1

/-- The constraint-adding operations: everything except a declaration and
a solve. -/
def Op.isConstraintOp : Op → Bool
  | .attributeOp _ _ => false
  | .solveOp => false
  | _ => true

/-- Check that a sequence of operations runs without any thrown error. -/
def applyOpsAllOk : List Op → ProblemState → Bool
  | [], _ => true
  | op :: ops, s => (op.apply s).2.isNone && applyOpsAllOk ops (op.apply s).1

/-- The operations building the C5 scenario: two nullary attributes, with
`a` asserted twice and `b` once. -/
def opsC5 : List Op :=
  [.attributeOp "a" [], .attributeOp "b" [],
   .assertOp "a", .assertOp "a", .assertOp "b"]

/-- The C5 problem state. -/
def problemC5 : ProblemState := applyOps opsC5 initialProblem

/-- The operations declaring three nullary attributes `a`, `b`, `c`. -/
def opsABC : List Op :=
  [.attributeOp "a" [], .attributeOp "b" [], .attributeOp "c" []]

/-- The three-attribute problem state. -/
def problemABC : ProblemState := applyOps opsABC initialProblem

/-- The operations building the C10 scenario: `all(['a'])`, `all(['b'])`
and `quantify(2, 2, ['!a', '!b'])`. -/
def opsC10 : List Op :=
  [.attributeOp "a" [], .attributeOp "b" [],
   .allOp ["a"], .allOp ["b"], .quantifyOp 2 2 ["!a", "!b"]]

/-- The C10 problem state. -/
def problemC10 : ProblemState := applyOps opsC10 initialProblem

/-- The two-attribute problem `p.attribute('p'); p.attribute('q');
p.rule('q', ['!p']); p.rule('p', ['!q'])`. -/
def problemPQ : ProblemState :=
  applyOps
    [.attributeOp "p" [], .attributeOp "q" [],
     .ruleOp "q" ["!p"], .ruleOp "p" ["!q"]]
    initialProblem

/-- The one-attribute problem `p.attribute('p')`. -/
def problemP : ProblemState := applyOps [.attributeOp "p" []] initialProblem

/-! ## Basic facts about the scoring pass and the search loop -/

instance {ε α : Type} [DecidableEq ε] [DecidableEq α] : DecidableEq (Except ε α)
  | .error e, .error f => decidable_of_iff (e = f) (by simp)
  | .error _, .ok _ => isFalse (by simp)
  | .ok _, .error _ => isFalse (by simp)
  | .ok a, .ok b => decidable_of_iff (a = b) (by simp)

theorem satisfies_fst_none {cs : List Constraint} {A : List Bool} {rng : RNG}
    (h : (satisfies cs A rng).1 = none) : ∀ c ∈ cs, clauseOK A c = true := by
  simp only [satisfies] at h
  split at h
  · exact List.countP_eq_length.mp (by assumption)
  · simp at h

theorem foldl_bestStep_pos (m : List Int) (l : List ℕ) :
    ∀ acc : List ℕ, (∀ x ∈ l, 1 ≤ x) → (∀ x ∈ acc, 1 ≤ x) →
      ∀ x ∈ l.foldl
        (fun best i =>
          let best := if m.getD i 0 = 0 then best ++ [i] else best
          if 0 < m.getD i 0 then [i] else best) acc, 1 ≤ x := by
  induction l with
  | nil => intro acc _ hacc x hx; exact hacc x hx
  | cons a l ih =>
    intro acc hl hacc x hx
    refine ih _ (fun y hy => hl y (List.mem_cons_of_mem _ hy)) ?_ x hx
    intro y hy
    have ha : 1 ≤ a := hl a (List.mem_cons_self a l)
    dsimp only at hy
    split at hy
    · simp at hy
      rcases hy with rfl; exact ha
    · split at hy <;> rename_i hsp
      · rcases List.mem_append.mp hy with hy | hy
        · exact hacc y hy
        · simp at hy; rcases hy with rfl; exact ha
      · exact hacc y hy

theorem mem_bestCandidates_pos {m : List Int} {i : ℕ} (h : i ∈ bestCandidates m) : 1 ≤ i := by
  unfold bestCandidates at h
  refine foldl_bestStep_pos m _ [] (fun x hx => ?_) (by simp) i h
  exact (List.mem_range'_1.mp hx).1

theorem jsIndex_mem {l : List α} {i : Int} {x : α} (h : jsIndex l i = some x) : x ∈ l := by
  unfold jsIndex at h
  split at h
  · simp at h
  · exact List.get?_mem h

theorem satisfies_suggestion_pos {cs : List Constraint} {A : List Bool} {rng : RNG}
    {k : ℕ} {i : ℕ} (h : (satisfies cs A rng).1 = some (k, some i)) : 1 ≤ i := by
  simp only [satisfies] at h
  split at h
  · simp at h
  · simp only [Option.some.injEq, Prod.mk.injEq] at h
    exact mem_bestCandidates_pos (jsIndex_mem h.2)

theorem satisfies_snd_vals (cs : List Constraint) (A : List Bool) (rng : RNG) :
    (satisfies cs A rng).2.vals = rng.vals := by
  simp only [satisfies]
  split
  · rfl
  · rfl

theorem drawBools_snd_vals (n : ℕ) (rng : RNG) : (drawBools n rng).2.vals = rng.vals := by
  induction n generalizing rng with
  | zero => rfl
  | succ n ih => simpa [drawBools, RNG.next] using ih _

theorem drawBools_length (n : ℕ) (rng : RNG) : (drawBools n rng).1.length = n := by
  induction n generalizing rng with
  | zero => rfl
  | succ n ih => simpa [drawBools, RNG.next] using ih _

/-- Whatever the search loop returns, it is a satisfying assignment (`ok`)
or the timeout error: the loop body cannot produce any other outcome. -/
theorem solveLoop_ok_or_timeout (cs : List Constraint) (w : ℕ) :
    ∀ (fuel : ℕ) (A : List Bool) (noise : ℚ) (window : List ℕ) (it : ℕ) (rng : RNG)
      (result : Option (ℕ × Option ℕ)),
      (∃ A2, solveLoop cs w fuel A noise window it rng result = .ok A2) ∨
        solveLoop cs w fuel A noise window it rng result = .error "Timeout" := by
  intro fuel
  induction fuel with
  | zero =>
    intro A noise window it rng result
    match result with
    | none => exact Or.inl ⟨A, rfl⟩
    | some r => exact Or.inr rfl
  | succ fuel ih =>
    intro A noise window it rng result
    match result with
    | none => exact Or.inl ⟨A, rfl⟩
    | some r =>
      rw [solveLoop]
      dsimp only
      split
      · exact Or.inr rfl
      · exact ih _ _ _ (it + 1) _ _

theorem getD_set_ne {l : List α} {i j : ℕ} (a d : α) (h : i ≠ j) :
    (l.set i a).getD j d = l.getD j d := by
  simp only [List.getD_eq_getElem?_getD, List.getElem?_set_ne h]

theorem greedyFlip_getD_zero {A : List Bool} {sugg : Option ℕ}
    (hs : ∀ i, sugg = some i → 1 ≤ i) :
    (greedyFlip A sugg).getD 0 false = A.getD 0 false := by
  match sugg with
  | none => rfl
  | some i =>
    have hi := hs i rfl
    exact getD_set_ne _ _ (by omega)

theorem greedyFlip_length (A : List Bool) (sugg : Option ℕ) :
    (greedyFlip A sugg).length = A.length := by
  match sugg with
  | none => rfl
  | some i => simp [greedyFlip]

theorem flipAt_getD_zero {A : List Bool} {i : Int} (h : 1 ≤ i ∨ i < 0) :
    (flipAt A i).getD 0 false = A.getD 0 false := by
  unfold flipAt
  split
  · rfl
  · rename_i hneg
    rcases h with h | h
    · exact getD_set_ne _ _ (by omega)
    · exact absurd h hneg

theorem flipAt_length (A : List Bool) (i : Int) : (flipAt A i).length = A.length := by
  unfold flipAt
  split <;> simp

/-- The index of a random flip is at least 1 when the random draw is
nonnegative and the assignment is nonempty. -/
theorem randomFlipIndex_pos {q : ℚ} (hq : 0 ≤ q) {n : ℕ} (hn : 1 ≤ n) :
    1 ≤ 1 + ⌊q * ((n : ℚ) - 1)⌋ := by
  have h1 : (0 : ℚ) ≤ (n : ℚ) - 1 := by
    have : (1 : ℚ) ≤ (n : ℚ) := by exact_mod_cast hn
    linarith
  have : (0 : ℚ) ≤ q * ((n : ℚ) - 1) := mul_nonneg hq h1
  have : (0 : Int) ≤ ⌊q * ((n : ℚ) - 1)⌋ := Int.floor_nonneg.mpr this
  omega

/-- Invariant of the flip-search loop: whenever it answers `ok`, the
returned assignment keeps slot 0 true, keeps the length of the input
assignment, and satisfies every clause. -/
theorem solveLoop_sound (cs : List Constraint) (w : ℕ) :
    ∀ (fuel : ℕ) (A : List Bool) (noise : ℚ) (window : List ℕ) (it : ℕ) (rng : RNG)
      (result : Option (ℕ × Option ℕ)) (A2 : List Bool),
      (∀ n, 0 ≤ rng.vals n) →
      A.getD 0 false = true →
      (∀ k i, result = some (k, some i) → 1 ≤ i) →
      (result = none → ∀ c ∈ cs, clauseOK A c = true) →
      solveLoop cs w fuel A noise window it rng result = .ok A2 →
      A2.getD 0 false = true ∧ A2.length = A.length ∧ ∀ c ∈ cs, clauseOK A2 c = true := by
  intro fuel
  induction fuel with
  | zero =>
    intro A noise window it rng result A2 hrng h0 hsugg hnone hrun
    match result with
    | none =>
      cases hrun
      exact ⟨h0, rfl, hnone rfl⟩
    | some r => exact absurd hrun (by simp [solveLoop])
  | succ fuel ih =>
    intro A noise window it rng result A2 hrng h0 hsugg hnone hrun
    match result with
    | none =>
      cases hrun
      exact ⟨h0, rfl, hnone rfl⟩
    | some r =>
      rw [solveLoop] at hrun
      dsimp only at hrun
      split at hrun
      · exact absurd hrun (by simp)
      · -- one loop iteration; name the new assignment
        set flip :=
          (if noise < (rng.next).1 then (greedyFlip A r.2, (rng.next).2)
           else
             ((flipAt A (1 + ⌊((rng.next).2.next).1 * ((A.length : ℚ) - 1)⌋)),
               ((rng.next).2.next).2)) with hflip
        have hA2zero : flip.1.getD 0 false = A.getD 0 false := by
          rw [hflip]
          split
          · exact greedyFlip_getD_zero (fun i hi => hsugg r.1 i (by rw [← hi]))
          · refine flipAt_getD_zero (Or.inl ?_)
            refine randomFlipIndex_pos (hrng _) ?_
            have : A ≠ [] := by
              intro hAnil
              rw [hAnil] at h0
              simp at h0
            exact List.length_pos.mpr this
        have hA2len : flip.1.length = A.length := by
          rw [hflip]
          split
          · exact greedyFlip_length _ _
          · exact flipAt_length _ _
        have hvals : (satisfies cs flip.1 flip.2).2.vals = rng.vals := by
          rw [satisfies_snd_vals]
          rw [hflip]
          split
          · rfl
          · rfl
        have hrec :=
          ih flip.1 _ _ (it + 1) (satisfies cs flip.1 flip.2).2
            (satisfies cs flip.1 flip.2).1 A2
            (by rw [hvals]; exact hrng)
            (by rw [hA2zero]; exact h0)
            (fun k i hki => satisfies_suggestion_pos hki)
            (fun hn => satisfies_fst_none hn)
            hrun
        exact ⟨hrec.1, hA2len ▸ hrec.2.1, hrec.2.2⟩

/-- Soundness of `solve`: an `ok` answer keeps slot 0 true, has one slot per
registered id, and satisfies every clause of the post-completion store. -/
theorem solve_sound_aux {s : ProblemState} {rng : RNG} {A : List Bool}
    (hrng : ∀ n, 0 ≤ rng.vals n)
    (hne : s.fromInternal ≠ [])
    (hrun : (s.solve rng).1 = .ok A) :
    A.getD 0 false = true ∧ A.length = (applyCompletion s).fromInternal.length ∧
      ∀ c ∈ (applyCompletion s).constraints, clauseOK A c = true := by
  unfold ProblemState.solve at hrun
  dsimp only at hrun
  set s2 := applyCompletion s with hs2
  set draw := drawBools s2.fromInternal.length rng with hdraw
  set A0 := draw.1.set 0 true with hA0
  have hdlen : draw.1.length = s2.fromInternal.length := by
    rw [hdraw]
    exact drawBools_length _ _
  have hfpos : 0 < s2.fromInternal.length := by
    have : s2.fromInternal = s.fromInternal := by
      rw [hs2]
      unfold applyCompletion
      split <;> rfl
    rw [this]
    exact List.length_pos.mpr hne
  have hlen0 : A0.length = s2.fromInternal.length := by
    rw [hA0]
    simp [hdlen]
  have h00 : A0.getD 0 false = true := by
    rw [hA0]
    simp only [List.getD_eq_getElem?_getD]
    rw [List.getElem?_set_self (by rw [hdlen]; exact hfpos)]
    rfl
  have hvals : (satisfies s2.constraints A0 draw.2).2.vals = rng.vals := by
    rw [satisfies_snd_vals, hdraw, drawBools_snd_vals]
  have := solveLoop_sound s2.constraints _ 50000 A0 0 (List.replicate _ 0) 0
    (satisfies s2.constraints A0 draw.2).2 (satisfies s2.constraints A0 draw.2).1 A
    (by rw [hvals]; exact hrng) h00
    (fun k i hki => satisfies_suggestion_pos hki)
    (fun hn => satisfies_fst_none hn)
    hrun
  exact ⟨this.1, by rw [← hlen0]; exact this.2.1, this.2.2⟩

/-! ## Claim-level literal semantics -/

/-- Truth of a literal as the specification words it: the literal 0 counts
as true, a positive literal is true when its atom is assigned true, a
negative literal when its atom is assigned false. -/
def litTrue (A : List Bool) (l : Int) : Bool :=
  if l = 0 then true
  else if 0 < l then A.getD l.toNat false
  else !(A.getD (-l).toNat false)

/-- The number of satisfied literals of a clause, in claim-level terms. -/
def trueLiteralCount (A : List Bool) (clause : List Int) : ℕ :=
  clause.countP (litTrue A)

theorem litTrue_eq_litLookup {A : List Bool} (h0 : A.getD 0 false = true) (l : Int) :
    litTrue A l = litLookup A l := by
  unfold litTrue litLookup
  rcases lt_trichotomy l 0 with hl | hl | hl
  · rw [if_neg (by omega), if_neg (by omega), if_pos hl]
  · subst hl
    rw [if_pos rfl, if_neg (by omega)]
    exact h0.symm
  · rw [if_neg (by omega), if_pos hl, if_neg (by omega)]

theorem foldl_count_eq_countP (p : α → Bool) (l : List α) :
    ∀ acc : ℕ, l.foldl (fun accum x => if p x then accum + 1 else accum) acc
      = acc + l.countP p := by
  induction l with
  | nil => intro acc; simp
  | cons a l ih =>
    intro acc
    rw [List.foldl_cons, List.countP_cons]
    by_cases hp : p a
    · rw [if_pos hp, ih, if_pos hp]
      omega
    · rw [if_neg hp, ih, if_neg hp]
      omega

theorem clauseCount_eq_countP (A : List Bool) (cl : List Int) :
    clauseCount A cl = cl.countP (litLookup A) := by
  unfold clauseCount
  rw [foldl_count_eq_countP]
  omega

theorem trueLiteralCount_eq_clauseCount {A : List Bool} (h0 : A.getD 0 false = true)
    (cl : List Int) : trueLiteralCount A cl = clauseCount A cl := by
  rw [trueLiteralCount, clauseCount_eq_countP]
  exact List.countP_congr (fun l _ => by rw [litTrue_eq_litLookup h0])

theorem clauseOK_iff {A : List Bool} {c : Constraint} :
    clauseOK A c = true ↔
      c.lo ≤ (clauseCount A c.clause : Int) ∧ (clauseCount A c.clause : Int) ≤ c.hi := by
  unfold clauseOK
  simp

/-! ## Claim C1 -/

/-- C1.  Soundness of returned solutions: whenever `solve()` returns an
assignment rather than throwing, every cardinality clause of the
post-completion constraint store — user clauses and completion clauses
alike — has its satisfied-literal count within `[lo, hi]`, where the
literal 0 counts as true, a positive literal is true when its atom is
assigned true, and a negative literal when its atom is assigned false. -/
theorem claim_C1_solve_soundness (s : ProblemState) (rng : RNG) (A : List Bool)
    (hrng : validRNG rng) (hne : s.fromInternal ≠ [])
    (hrun : (s.solve rng).1 = .ok A) :
    ∀ c ∈ ((s.solve rng).2).constraints,
      c.lo ≤ (trueLiteralCount A c.clause : Int) ∧
        (trueLiteralCount A c.clause : Int) ≤ c.hi := by
  have haux := solve_sound_aux (fun n => (hrng n).1) hne hrun
  intro c hc
  have hok := haux.2.2 c hc
  rw [trueLiteralCount_eq_clauseCount haux.1]
  exact clauseOK_iff.mp hok

/-- Witness for C1 at a concrete run: solving the two-rule problem of C2
under a concrete stream returns the assignment making `p` true, and the
first stored clause `(1, 2, [1, 2])` indeed has its true-literal count in
band. -/
theorem claim_C1_solve_soundness_witness :
    (1 : Int) ≤ (trueLiteralCount [true, true, false] [1, 2] : Int) ∧
      (trueLiteralCount [true, true, false] [1, 2] : Int) ≤ (2 : Int) :=
  claim_C1_solve_soundness problemPQ ⟨fun n => if n = 1 then mkRat 1 2 else 0, 0⟩
    [true, true, false]
    (fun n => by
      by_cases hn : n = 1
      · simp only [hn, if_pos]
        exact ⟨by decide, by decide⟩
      · simp only [if_neg hn]
        exact ⟨le_refl 0, by norm_num⟩)
    (by decide) (by decide) ⟨1, 2, [1, 2]⟩ (by decide)

/-! ## Claim C8 -/

/-- C8.  Bounded termination of `solve()`: the model of the search loop is a
total function whose only outcomes are a satisfying assignment or the
`Timeout` error; the fuel of the loop is the 50000-iteration failsafe of
the source, so the timeout fires after at most 50000 iterations of the
flip-search loop. -/
theorem claim_C8_termination (s : ProblemState) (rng : RNG) :
    (∃ A, (s.solve rng).1 = .ok A) ∨ (s.solve rng).1 = .error "Timeout" := by
  unfold ProblemState.solve
  dsimp only
  exact solveLoop_ok_or_timeout _ _ 50000 _ 0 _ 0 _ _

/-! ## Claim C2 -/


/-- C2.  Negative-loop rule semantics: for the problem with the two rules
`q <- !p` and `p <- !q`, any assignment returned by `solve()` makes exactly
one of `p`, `q` true, so `trueAttributes` is `["p"]` or `["q"]`; the
assignment making both true is never returned. -/
theorem claim_C2_negative_loop (rng : RNG) (A : List Bool)
    (hrng : validRNG rng) (hrun : (problemPQ.solve rng).1 = .ok A) :
    (Solution.mk A ((problemPQ.solve rng).2).fromInternal).trueAttributes = ["p"] ∨
      (Solution.mk A ((problemPQ.solve rng).2).fromInternal).trueAttributes = ["q"] := by
  have haux := solve_sound_aux (fun n => (hrng n).1) (by decide) hrun
  have h2eq : (problemPQ.solve rng).2 = applyCompletion problemPQ := rfl
  have h3 : (applyCompletion problemPQ).fromInternal.length = 3 := by decide
  have hlen : A.length = 3 := by rw [haux.2.1, h3]
  have h1 := haux.2.2 ⟨1, 2, [1, 2]⟩ (by decide)
  have h2 := haux.2.2 ⟨1, 2, [-1, -2]⟩ (by decide)
  have h0 := haux.1
  rw [h2eq]
  match A, hlen with
  | [a0, a1, a2], _ =>
    have ha0 : a0 = true := by simpa using h0
    subst ha0
    cases a1 <;> cases a2
    · exact absurd h1 (by decide)
    · exact Or.inr (by decide)
    · exact Or.inl (by decide)
    · exact absurd h2 (by decide)

/-- Witness for C2: a concrete random stream under which the solver finds
the model making only `p` true. -/
theorem claim_C2_negative_loop_witness :
    (Solution.mk [true, true, false]
        ((problemPQ.solve ⟨fun n => if n = 1 then mkRat 1 2 else 0, 0⟩).2).fromInternal).trueAttributes
        = ["p"] ∨
      (Solution.mk [true, true, false]
        ((problemPQ.solve ⟨fun n => if n = 1 then mkRat 1 2 else 0, 0⟩).2).fromInternal).trueAttributes
        = ["q"] :=
  claim_C2_negative_loop ⟨fun n => if n = 1 then mkRat 1 2 else 0, 0⟩ [true, true, false]
    (fun n => by
      by_cases hn : n = 1
      · simp only [hn, if_pos]
        exact ⟨by decide, by decide⟩
      · simp only [if_neg hn]
        exact ⟨le_refl 0, by norm_num⟩)
    (by decide)

/-! ## Claims C5, C6, C10 -/




/-- C5 (evaluation at the failing input).  At the assignment with both
atoms false, atom 1 (`a`) has net score 2 and atom 2 (`b`) has score 1, so
the set the claim draws from is `{1}`; but the selection loop of
`satisfies` — whose `bestNum` baseline is never updated — ends with the
candidate list `[2]`, and the returned suggestion is atom 2 for every
tie-break draw in `[0, 1)`.  Flipping atom 2 satisfies strictly fewer
clauses than flipping atom 1. -/
theorem claim_C5_suggestion_not_argmax :
    applyOpsAllOk opsC5 initialProblem = true ∧
    suggestionScores problemC5.constraints [true, false, false] = [0, 2, 1] ∧
    bestCandidates (suggestionScores problemC5.constraints [true, false, false]) = [2] ∧
    (satisfies problemC5.constraints [true, false, false] ⟨fun _ => 0, 0⟩).1
      = some (0, some 2) := by
  refine ⟨by decide, by decide, by decide, by decide⟩



/-- C6 counterexample: `atLeast(3/2, [a, b, c])` has a non-integer bound
with `0 < 3/2 ≤ 3`, yet the call does not throw — it appends the clause
`(2, 3, [1, 2, 3])`.  (Only `exactly` performs an integrality check.) -/
theorem claim_C6_counterexample :
    (mkRat 3 2).den = 2 ∧ (0 : ℚ) < mkRat 3 2 ∧ mkRat 3 2 ≤ 3 ∧
    (problemABC.atLeast (mkRat 3 2) ["a", "b", "c"]).2 = none ∧
    (problemABC.atLeast (mkRat 3 2) ["a", "b", "c"]).1.constraints
      = [⟨2, 3, [1, 2, 3]⟩] := by
  refine ⟨by decide, by decide, by decide, by decide, by decide⟩

/-- C6 as amended: for every non-integer `min` with `0 < min ≤ |P|` over
resolvable propositions, `atLeast(min, P)` does not raise; it appends the
single clause `(ceil(min), |P|, L)`, behaving as `atLeast(ceil(min))`. -/
theorem claim_C6_amended_nonint_atLeast (s : ProblemState) (mn : ℚ)
    (props : List String) (lits : List Int)
    (hpos : 0 < mn) (hle : mn ≤ (props.length : ℚ)) (hnotint : mn.den ≠ 1)
    (hres : resolveAll s.toInternal props = .ok lits) :
    s.atLeast mn props =
      ({ s.reset with
          constraints := (s.reset).constraints ++ [⟨⌈mn⌉, (props.length : Int), lits⟩] },
        none) := by
  unfold ProblemState.atLeast
  rw [if_neg (not_lt.mpr hle), if_neg (not_le.mpr hpos)]
  unfold ProblemState.quantify
  have hfloor : ⌊((props.length : ℕ) : ℚ)⌋ = (props.length : Int) := Int.floor_natCast _
  have hceil : ⌈mn⌉ ≤ ⌊((props.length : ℕ) : ℚ)⌋ := by
    rw [hfloor, Int.ceil_le]
    push_cast
    exact hle
  have hcond : 0 ≤ ((props.length : ℕ) : ℚ) ∧ ⌈mn⌉ ≤ ⌊((props.length : ℕ) : ℚ)⌋ ∧
      mn ≤ ((props.length : ℕ) : ℚ) := ⟨Nat.cast_nonneg _, hceil, hle⟩
  rw [if_neg (not_not_intro hcond), if_neg (fun h => absurd h.1 (not_le.mpr hpos)), hres]
  have hmax : max 0 ⌈mn⌉ = ⌈mn⌉ := max_eq_right (Int.ceil_nonneg hpos.le)
  rw [hmax, hfloor, min_self]

/-- Witness for the amended C6 at the concrete counterexample input. -/
theorem claim_C6_amended_nonint_atLeast_witness :
    problemABC.atLeast (mkRat 3 2) ["a", "b", "c"] =
      ({ problemABC.reset with
          constraints := (problemABC.reset).constraints
            ++ [⟨⌈mkRat 3 2⌉, ((["a", "b", "c"] : List String).length : Int), [1, 2, 3]⟩] },
        none) :=
  claim_C6_amended_nonint_atLeast problemABC (mkRat 3 2) ["a", "b", "c"] [1, 2, 3]
    (by decide) (by decide) (by decide) (by decide)



/-- C10.  At the reachable state with clauses `(1,1,[1])`, `(1,1,[2])`,
`(2,2,[-1,-2])` and the all-true assignment, the third clause is violated
(2 of 3 clauses satisfied) while both atoms score strictly negative; the
candidate list is empty, the suggestion is `undefined` (`none`), and the
greedy flip at an undefined suggestion leaves every slot of the assignment
unchanged. -/
theorem claim_C10_undefined_suggestion :
    applyOpsAllOk opsC10 initialProblem = true ∧
    suggestionScores problemC10.constraints [true, true, true] = [0, -1, -1] ∧
    (suggestionScores problemC10.constraints [true, true, true]).getD 1 0 < 0 ∧
    (suggestionScores problemC10.constraints [true, true, true]).getD 2 0 < 0 ∧
    bestCandidates (suggestionScores problemC10.constraints [true, true, true]) = [] ∧
    (satisfies problemC10.constraints [true, true, true] ⟨fun _ => 0, 0⟩).1
      = some (2, none) ∧
    problemC10.constraints.length = 3 ∧
    greedyFlip [true, true, true] none = [true, true, true] := by
  refine ⟨by decide, by decide, by decide, by decide, by decide, by decide, by decide, by decide⟩

/-! ## Claim C3 -/

theorem mkCompletion_injective : Function.Injective mkCompletion := by
  intro a b hab
  unfold mkCompletion at hab
  have hclause := congrArg Constraint.clause hab
  simp only at hclause
  obtain ⟨hhead, hjs⟩ := List.cons.injEq _ _ _ _ ▸ hclause
  have h1 : a.1 = b.1 := by
    have := neg_injective hhead
    exact_mod_cast this
  exact Prod.ext h1 hjs

theorem reset_nonRule (s : ProblemState) : (s.reset).nonRuleConstraints = none := by
  unfold ProblemState.reset
  split <;> rfl

/-- C3.  Rule completion clause shape: when no checkpoint is set (the state
after any constraint-adding operation), one completion pass appends exactly
one clause `(1, k + 1, [-h, j_1, ..., j_k])` per recorded rule head `h`
with justification list `j_1, ..., j_k` in recording order, and nothing
else; when a checkpoint is set (the state right after a solve), a further
completion pass appends nothing. -/
theorem claim_C3_completion_clauses (s : ProblemState)
    (hnodup : (s.rules.map Prod.fst).Nodup) :
    (s.nonRuleConstraints = none →
      (applyCompletion s).constraints = s.constraints ++ completionClauses s.rules ∧
      (∀ h js, (h, js) ∈ s.rules →
        (completionClauses s.rules).count
          { lo := 1, hi := (js.length : Int) + 1, clause := -(h : Int) :: js } = 1) ∧
      (∀ c ∈ completionClauses s.rules, ∃ e ∈ s.rules, c = mkCompletion e)) ∧
    (∀ k, s.nonRuleConstraints = some k → applyCompletion s = s) := by
  constructor
  · intro hnone
    refine ⟨by simp [applyCompletion, hnone], ?_, ?_⟩
    · intro h js hmem
      have hrulesnodup : s.rules.Nodup := hnodup.of_map
      have hmapnodup : (s.rules.map mkCompletion).Nodup :=
        hrulesnodup.map mkCompletion_injective
      have : ({ lo := 1, hi := (js.length : Int) + 1, clause := -(h : Int) :: js } : Constraint)
          = mkCompletion (h, js) := rfl
      rw [this]
      exact List.count_eq_one_of_mem hmapnodup (List.mem_map_of_mem _ hmem)
    · intro c hc
      obtain ⟨e, he, heq⟩ := List.mem_map.mp hc
      exact ⟨e, he, heq.symm⟩
  · intro k hk
    simp [applyCompletion, hk]

/-- Witness for C3 at the two-rule problem: the pass appends the two
completion clauses, each exactly once, and a second pass is the identity. -/
theorem claim_C3_completion_clauses_witness :
    ((applyCompletion problemPQ).constraints
        = problemPQ.constraints ++ completionClauses problemPQ.rules ∧
      (completionClauses problemPQ.rules).count
        { lo := 1, hi := ((1 : ℕ) : Int) + 1, clause := [-1, -2] } = 1) ∧
      applyCompletion (applyCompletion problemPQ) = applyCompletion problemPQ := by
  have h := claim_C3_completion_clauses problemPQ (by decide)
  have h1 := h.1 (by decide)
  have hcount := h1.2.1 1 [-2] (by decide)
  have h2 := claim_C3_completion_clauses (applyCompletion problemPQ) (by decide)
  exact ⟨⟨h1.1, hcount⟩, h2.2 problemPQ.constraints.length (by decide)⟩

/-! ## Claim C4: per-operation reset discipline -/

theorem quantify_success_shape {s s2 : ProblemState} {mn mx : ℚ} {props : List String}
    (h : s.quantify mn mx props = (s2, none)) :
    s2.nonRuleConstraints = none ∧
      ∃ d, s2.constraints = (s.reset).constraints ++ d := by
  unfold ProblemState.quantify at h
  split at h
  · simp at h
  · split at h
    · simp at h
    · split at h
      · simp at h
      · have h1 := congrArg Prod.fst h
        simp only at h1
        subst h1
        exact ⟨reset_nonRule s, ⟨_, rfl⟩⟩

theorem all_success_shape {s s2 : ProblemState} {props : List String}
    (h : s.all props = (s2, none)) :
    s2.nonRuleConstraints = none ∧
      ∃ d, s2.constraints = (s.reset).constraints ++ d := by
  unfold ProblemState.all at h
  split at h
  · simp at h
  · exact quantify_success_shape h

theorem implies_success_shape {s s2 : ProblemState} {premises : List String}
    {conclusion : String} (h : s.implies premises conclusion = (s2, none)) :
    s2.nonRuleConstraints = none ∧
      ∃ d, s2.constraints = (s.reset).constraints ++ d := by
  unfold ProblemState.implies at h
  split at h
  · simp at h
  · split at h
    · simp at h
    · have h1 := congrArg Prod.fst h
      simp only at h1
      subst h1
      exact ⟨reset_nonRule s, ⟨_, rfl⟩⟩

theorem iff_nonRule (s : ProblemState) (prems : List Int) (conc : Int) :
    (s.iff prems conc).nonRuleConstraints = s.nonRuleConstraints := rfl

theorem iff_constraints_shape (s : ProblemState) (prems : List Int) (conc : Int) :
    ∃ d, (s.iff prems conc).constraints = s.constraints ++ d := by
  simp only [ProblemState.iff, List.append_assoc]
  exact ⟨_, rfl⟩

theorem generate_nonRule (s : ProblemState) (name : String) :
    ((s.generate name).2).nonRuleConstraints = s.nonRuleConstraints := rfl

theorem generate_constraints (s : ProblemState) (name : String) :
    ((s.generate name).2).constraints = s.constraints := rfl

theorem equal_success_shape {s s2 : ProblemState} {a b : List String}
    (h : s.equal a b = (s2, none)) :
    s2.nonRuleConstraints = none ∧
      ∃ d, s2.constraints = (s.reset).constraints ++ d := by
  unfold ProblemState.equal at h
  split at h
  · simp at h
  · split at h
    · exact all_success_shape h
    · split at h
      · exact all_success_shape h
      · dsimp only at h
        split at h
        · -- a is a singleton
          split at h
          · -- b is a singleton: two pushed clauses
            split at h
            · simp at h
            · split at h
              · simp at h
              · have h1 := congrArg Prod.fst h
                simp only at h1
                subst h1
                exact ⟨reset_nonRule s, ⟨_, rfl⟩⟩
          · -- b is a conjunction: iff premises (lookup of b) (lookup of a.head)
            split at h
            · simp at h
            · split at h
              · simp at h
              · have h1 := congrArg Prod.fst h
                simp only at h1
                subst h1
                refine ⟨?_, iff_constraints_shape _ _ _⟩
                rw [iff_nonRule]
                exact reset_nonRule s
        · split at h
          · -- b is a singleton, a a conjunction
            split at h
            · simp at h
            · split at h
              · simp at h
              · have h1 := congrArg Prod.fst h
                simp only at h1
                subst h1
                refine ⟨?_, iff_constraints_shape _ _ _⟩
                rw [iff_nonRule]
                exact reset_nonRule s
          · -- both conjunctions: mint, then two iff encodings
            split at h
            · simp at h
            · split at h
              · simp at h
              · have h1 := congrArg Prod.fst h
                simp only at h1
                subst h1
                constructor
                · rw [iff_nonRule, iff_nonRule, generate_nonRule]
                  exact reset_nonRule s
                · obtain ⟨d1, hd1⟩ := iff_constraints_shape ((s.reset).generate "").2 _
                    (((s.reset).generate "").1 : Int)
                  obtain ⟨d2, hd2⟩ := iff_constraints_shape
                    ((((s.reset).generate "").2).iff _ (((s.reset).generate "").1 : Int)) _
                    (((s.reset).generate "").1 : Int)
                  refine ⟨d1 ++ d2, ?_⟩
                  rw [hd2, hd1, generate_constraints, List.append_assoc]

theorem rule_success_shape {s s2 : ProblemState} {conclusion : String}
    {premises : List String} (h : s.rule conclusion premises = (s2, none)) :
    s2.nonRuleConstraints = none ∧
      ∃ d, s2.constraints = (s.reset).constraints ++ d := by
  unfold ProblemState.rule at h
  split at h
  · simp at h
  · split at h
    · simp at h
    · split at h
      · simp at h
      · split at h
        · simp at h
        · rename_i simpl hsimpl
          -- the inner implies succeeded
          split at h
          · -- no premises: only the rule map changes
            have h1 := congrArg Prod.fst h
            simp only at h1
            subst h1
            obtain ⟨hn, d, hd⟩ := implies_success_shape hsimpl
            exact ⟨hn, d, hd⟩
          · split at h
            · have h1 := congrArg Prod.fst h
              simp only at h1
              subst h1
              obtain ⟨hn, d, hd⟩ := implies_success_shape hsimpl
              exact ⟨hn, d, hd⟩
            · have h1 := congrArg Prod.fst h
              simp only at h1
              subst h1
              obtain ⟨hn, d, hd⟩ := implies_success_shape hsimpl
              constructor
              · rw [iff_nonRule, generate_nonRule]
                exact hn
              · obtain ⟨d2, hd2⟩ := iff_constraints_shape (simpl.generate "").2 _
                  ((simpl.generate "").1 : Int)
                refine ⟨d ++ d2, ?_⟩
                rw [hd2, generate_constraints, hd, List.append_assoc]

/-- Every successful constraint-adding operation leaves the checkpoint
cleared and its clause list equal to the truncated-to-checkpoint list plus
the clauses it appended. -/
theorem op_success_shape {op : Op} {s s2 : ProblemState}
    (hop : op.isConstraintOp = true) (h : op.apply s = (s2, none)) :
    s2.nonRuleConstraints = none ∧
      ∃ d, s2.constraints = (s.reset).constraints ++ d := by
  cases op with
  | attributeOp name args => simp [Op.isConstraintOp] at hop
  | solveOp => simp [Op.isConstraintOp] at hop
  | quantifyOp mn mx props => exact quantify_success_shape h
  | exactlyOp n props =>
    have h2 : s.exactly n props = (s2, none) := h
    unfold ProblemState.exactly at h2
    split at h2
    · simp at h2
    · split at h2
      · simp at h2
      · exact quantify_success_shape h2
  | allOp props => exact all_success_shape h
  | atLeastOp mn props =>
    have h2 : s.atLeast mn props = (s2, none) := h
    unfold ProblemState.atLeast at h2
    split at h2
    · simp at h2
    · split at h2
      · simp at h2
      · exact quantify_success_shape h2
  | atMostOp mx props =>
    have h2 : s.atMost mx props = (s2, none) := h
    unfold ProblemState.atMost at h2
    split at h2
    · simp at h2
    · split at h2
      · simp at h2
      · exact quantify_success_shape h2
  | uniqueOp props =>
    have h2 : s.unique props = (s2, none) := h
    unfold ProblemState.unique at h2
    split at h2
    · simp at h2
    · exact quantify_success_shape h2
  | inconsistentOp a b =>
    have h2 : s.atMost 1 [a, b] = (s2, none) := h
    unfold ProblemState.atMost at h2
    split at h2
    · simp at h2
    · split at h2
      · simp at h2
      · exact quantify_success_shape h2
  | impliesOp premises conclusion => exact implies_success_shape h
  | equalOp a b => exact equal_success_shape h
  | assertOp p =>
    have h2 : s.all [p] = (s2, none) := h
    exact all_success_shape h2
  | ruleOp conclusion premises => exact rule_success_shape h

theorem applyCompletion_of_none {s : ProblemState} (h : s.nonRuleConstraints = none) :
    applyCompletion s =
      { s with
          nonRuleConstraints := some s.constraints.length
          constraints := s.constraints ++ completionClauses s.rules } := by
  simp [applyCompletion, h]

theorem reset_constraints_of_some {s : ProblemState} {k : ℕ}
    (h : s.nonRuleConstraints = some k) :
    (s.reset).constraints = s.constraints.take k := by
  simp [ProblemState.reset, h]

/-! ## Claim C4 -/

/-- C4.  Checkpoint truncation and idempotence.  First part: every
successful constraint-adding operation truncates the clause list back to
the checkpoint (when set) before appending its own clauses, and leaves the
checkpoint cleared.  Second part: after add, solve, add, solve, the store
is the user encodings (the first operation's clauses survive the second
solve untouched) followed by exactly one copy of the completion clauses. -/
theorem claim_C4_checkpoint_idempotence :
    (∀ (op : Op) (s s2 : ProblemState), op.isConstraintOp = true →
        op.apply s = (s2, none) →
        s2.nonRuleConstraints = none ∧
          ∃ d, s2.constraints = (s.reset).constraints ++ d) ∧
    (∀ (o1 o2 : Op) (s0 s1 s3 : ProblemState),
        o1.isConstraintOp = true → o2.isConstraintOp = true →
        o1.apply s0 = (s1, none) →
        o2.apply (applyCompletion s1) = (s3, none) →
        (∃ d, s3.constraints = s1.constraints ++ d) ∧
          (applyCompletion s3).constraints
            = s3.constraints ++ completionClauses s3.rules ∧
          (applyCompletion s3).nonRuleConstraints = some s3.constraints.length) := by
  constructor
  · intro op s s2 hop h
    exact op_success_shape hop h
  · intro o1 o2 s0 s1 s3 hop1 hop2 h1 h3
    obtain ⟨hn1, d1, hd1⟩ := op_success_shape hop1 h1
    have hs2 := applyCompletion_of_none hn1
    obtain ⟨hn3, d3, hd3⟩ := op_success_shape hop2 h3
    have hreset : ((applyCompletion s1).reset).constraints = s1.constraints := by
      rw [reset_constraints_of_some (by rw [hs2])]
      rw [hs2]
      exact List.take_left _ _
    constructor
    · exact ⟨d3, by rw [hd3, hreset]⟩
    · rw [applyCompletion_of_none hn3]
      exact ⟨rfl, rfl⟩

/-- Witness for C4: asserting `a`, solving, asserting `b`, solving again on
the three-attribute problem. -/
theorem claim_C4_checkpoint_idempotence_witness :
    (((Op.assertOp "a").apply problemABC).1.nonRuleConstraints = none ∧
      ∃ d, ((Op.assertOp "a").apply problemABC).1.constraints
        = (problemABC.reset).constraints ++ d) ∧
    (∃ d,
      (((Op.assertOp "b").apply
          (applyCompletion ((Op.assertOp "a").apply problemABC).1)).1).constraints
        = (((Op.assertOp "a").apply problemABC).1).constraints ++ d) := by
  have h := claim_C4_checkpoint_idempotence
  refine ⟨h.1 (Op.assertOp "a") problemABC _ (by decide) (by decide), ?_⟩
  exact (h.2 (Op.assertOp "a") (Op.assertOp "b") problemABC _ _
    (by decide) (by decide) (by decide) (by decide)).1

/-! ## Claim C9 -/

theorem reset_toInternal (s : ProblemState) : (s.reset).toInternal = s.toInternal := by
  unfold ProblemState.reset
  split <;> rfl

theorem reset_fromInternal (s : ProblemState) : (s.reset).fromInternal = s.fromInternal := by
  unfold ProblemState.reset
  split <;> rfl

theorem reset_rules (s : ProblemState) : (s.reset).rules = s.rules := by
  unfold ProblemState.reset
  split <;> rfl

theorem resolveAll_error_of_mem {m : AttributeMap} {props : List String}
    (h : ∃ p ∈ props, ∃ e, plookup m p = .error e) :
    ∃ e, resolveAll m props = .error e := by
  induction props with
  | nil => simp at h
  | cons p ps ih =>
    rcases h with ⟨p2, hp2, e, he⟩
    rcases List.mem_cons.mp hp2 with rfl | hmem
    · exact ⟨e, by simp [resolveAll, he]⟩
    · rcases hok : plookup m p with e2 | l
      · exact ⟨e2, by simp [resolveAll, hok]⟩
      · obtain ⟨e3, he3⟩ := ih ⟨p2, hmem, e, he⟩
        exact ⟨e3, by simp [resolveAll, hok, he3]⟩

theorem resolveAll_ok_mem {m : AttributeMap} {props : List String} {lits : List Int}
    (h : resolveAll m props = .ok lits) :
    ∀ p ∈ props, ∃ l, plookup m p = .ok l := by
  induction props generalizing lits with
  | nil => simp
  | cons p ps ih =>
    intro p2 hp2
    unfold resolveAll at h
    split at h
    · simp at h
    · rename_i l hl
      split at h
      · simp at h
      · rename_i ls hls
        rcases List.mem_cons.mp hp2 with rfl | hmem
        · exact ⟨l, hl⟩
        · exact ih hls p2 hmem

/-- C9.  A failing `equal(A, B)` call with both sides non-empty throws, but
only after mutating the problem: the `reset()` at the head of the method
has already truncated any completion clauses and cleared the checkpoint,
and when both sides have two or more conjuncts the anonymous stand-in atom
has already been minted into the registry. -/
theorem claim_C9_equal_throws_after_mutation (s : ProblemState) (a b : List String)
    (ha : a ≠ []) (hb : b ≠ [])
    (hfail : ∃ p ∈ a ++ b, ∃ e, plookup s.toInternal p = .error e) :
    ∃ s2 e, s.equal a b = (s2, some e) ∧
      s2.nonRuleConstraints = none ∧
      s2.constraints = (s.reset).constraints ∧
      s2.rules = s.rules ∧
      (2 ≤ a.length → 2 ≤ b.length → s2.fromInternal = s.fromInternal ++ [""]) ∧
      ((a.length = 1 ∨ b.length = 1) → s2.fromInternal = s.fromInternal) := by
  have hla : a.length ≠ 0 := fun hc => ha (List.length_eq_zero.mp hc)
  have hlb : b.length ≠ 0 := fun hc => hb (List.length_eq_zero.mp hc)
  unfold ProblemState.equal
  rw [if_neg (fun hc => hla hc.1), if_neg hla, if_neg hlb]
  dsimp only
  by_cases ha1 : a.length = 1
  · rw [if_pos ha1]
    obtain ⟨a0, rfl⟩ := List.length_eq_one.mp ha1
    by_cases hb1 : b.length = 1
    · rw [if_pos hb1]
      obtain ⟨b0, rfl⟩ := List.length_eq_one.mp hb1
      rcases hA : plookup ((s.reset).toInternal) ([a0].headD "") with eA | lA
      · exact ⟨s.reset, eA, rfl, reset_nonRule s, rfl, reset_rules s,
          fun h2 _ => by simp at h2, fun _ => reset_fromInternal s⟩
      · rcases hB : plookup ((s.reset).toInternal) ([b0].headD "") with eB | lB
        · exact ⟨s.reset, eB, rfl, reset_nonRule s, rfl, reset_rules s,
            fun h2 _ => by simp at h2, fun _ => reset_fromInternal s⟩
        · exfalso
          rcases hfail with ⟨p, hp, e, he⟩
          rw [reset_toInternal] at hA hB
          rcases List.mem_append.mp hp with hp | hp
          · simp at hp
            subst hp
            have hA2 : plookup s.toInternal p = Except.ok lA := hA
            rw [he] at hA2
            exact Except.noConfusion hA2
          · simp at hp
            subst hp
            have hB2 : plookup s.toInternal p = Except.ok lB := hB
            rw [he] at hB2
            exact Except.noConfusion hB2
    · rw [if_neg hb1]
      rcases hB : resolveAll ((s.reset).toInternal) b with eB | lsB
      · exact ⟨s.reset, eB, rfl, reset_nonRule s, rfl, reset_rules s,
          fun h2 _ => by simp at h2, fun _ => reset_fromInternal s⟩
      · rcases hA : plookup ((s.reset).toInternal) ([a0].headD "") with eA | lA
        · exact ⟨s.reset, eA, rfl, reset_nonRule s, rfl, reset_rules s,
            fun h2 _ => by simp at h2, fun _ => reset_fromInternal s⟩
        · exfalso
          rcases hfail with ⟨p, hp, e, he⟩
          rw [reset_toInternal] at hA hB
          rcases List.mem_append.mp hp with hp | hp
          · simp at hp
            subst hp
            have hA2 : plookup s.toInternal p = Except.ok lA := hA
            rw [he] at hA2
            exact Except.noConfusion hA2
          · obtain ⟨l, hl⟩ := resolveAll_ok_mem hB p hp
            rw [he] at hl
            exact Except.noConfusion hl
  · rw [if_neg ha1]
    by_cases hb1 : b.length = 1
    · rw [if_pos hb1]
      obtain ⟨b0, rfl⟩ := List.length_eq_one.mp hb1
      rcases hA : resolveAll ((s.reset).toInternal) a with eA | lsA
      · exact ⟨s.reset, eA, rfl, reset_nonRule s, rfl, reset_rules s,
          fun _ h2 => by simp at h2, fun _ => reset_fromInternal s⟩
      · rcases hB : plookup ((s.reset).toInternal) ([b0].headD "") with eB | lB
        · exact ⟨s.reset, eB, rfl, reset_nonRule s, rfl, reset_rules s,
            fun _ h2 => by simp at h2, fun _ => reset_fromInternal s⟩
        · exfalso
          rcases hfail with ⟨p, hp, e, he⟩
          rw [reset_toInternal] at hA hB
          rcases List.mem_append.mp hp with hp | hp
          · obtain ⟨l, hl⟩ := resolveAll_ok_mem hA p hp
            rw [he] at hl
            exact Except.noConfusion hl
          · simp at hp
            subst hp
            have hB2 : plookup s.toInternal p = Except.ok lB := hB
            rw [he] at hB2
            exact Except.noConfusion hB2
    · rw [if_neg hb1]
      have hgen : ((s.reset).generate "") =
          ((s.reset).fromInternal.length,
            { s.reset with fromInternal := (s.reset).fromInternal ++ [""] }) := rfl
      rw [hgen]
      dsimp only
      rcases hA : resolveAll
          (({ s.reset with fromInternal := (s.reset).fromInternal ++ [""] }
            : ProblemState).toInternal) a with eA | lsA
      · refine ⟨_, eA, rfl, reset_nonRule s, rfl, reset_rules s,
          fun _ _ => by rw [reset_fromInternal], fun h2 => ?_⟩
        rcases h2 with h2 | h2
        · exact absurd h2 ha1
        · exact absurd h2 hb1
      · rcases hB : resolveAll
            (({ s.reset with fromInternal := (s.reset).fromInternal ++ [""] }
              : ProblemState).toInternal) b with eB | lsB
        · refine ⟨_, eB, rfl, reset_nonRule s, rfl, reset_rules s,
            fun _ _ => by rw [reset_fromInternal], fun h2 => ?_⟩
          rcases h2 with h2 | h2
          · exact absurd h2 ha1
          · exact absurd h2 hb1
        · exfalso
          rcases hfail with ⟨p, hp, e, he⟩
          have htoi : ({ s.reset with fromInternal := (s.reset).fromInternal ++ [""] }
              : ProblemState).toInternal = s.toInternal := reset_toInternal s
          rw [htoi] at hA hB
          rcases List.mem_append.mp hp with hp | hp
          · obtain ⟨l, hl⟩ := resolveAll_ok_mem hA p hp
            rw [he] at hl
            exact Except.noConfusion hl
          · obtain ⟨l, hl⟩ := resolveAll_ok_mem hB p hp
            rw [he] at hl
            exact Except.noConfusion hl

/-- Witness for C9: `equal(['x', 'y'], ['z', 'w'])` on the empty problem
throws (nothing is declared), yet the anonymous stand-in has been minted. -/
theorem claim_C9_equal_throws_after_mutation_witness :
    ∃ s2 e, initialProblem.equal ["x", "y"] ["z", "w"] = (s2, some e) ∧
      s2.nonRuleConstraints = none ∧
      s2.constraints = (initialProblem.reset).constraints ∧
      s2.rules = initialProblem.rules ∧
      (2 ≤ (["x", "y"] : List String).length → 2 ≤ (["z", "w"] : List String).length →
        s2.fromInternal = initialProblem.fromInternal ++ [""]) ∧
      (((["x", "y"] : List String).length = 1 ∨ (["z", "w"] : List String).length = 1) →
        s2.fromInternal = initialProblem.fromInternal) :=
  claim_C9_equal_throws_after_mutation initialProblem ["x", "y"] ["z", "w"]
    (by decide) (by decide)
    ⟨"x", by decide, "no such predicate declared", by decide⟩

/-! ## Claim C7: registry well-formedness and monotone evolution -/

/-- Every id of a one-argument map lies in `[lo, hi)`. -/
def map1Bounds (lo hi : ℕ) (m : Map1) : Prop := ∀ e ∈ m, lo ≤ e.2 ∧ e.2 < hi

/-- Every id of a two-argument map lies in `[lo, hi)`. -/
def map2Bounds (lo hi : ℕ) (m : Map2) : Prop := ∀ e ∈ m, map1Bounds lo hi e.2

/-- Every id of a three-argument map lies in `[lo, hi)`. -/
def map3Bounds (lo hi : ℕ) (m : Map3) : Prop := ∀ e ∈ m, map2Bounds lo hi e.2

/-- Every id reachable through a registry entry lies in `[lo, hi)`. -/
def entryBounds (lo hi : ℕ) (e : ArityEntry) : Prop :=
  (∀ id, e.a0 = some id → lo ≤ id ∧ id < hi) ∧
  (∀ m, e.a1 = some m → map1Bounds lo hi m) ∧
  (∀ m, e.a2 = some m → map2Bounds lo hi m) ∧
  (∀ m, e.a3 = some m → map3Bounds lo hi m)

/-- Well-formedness of a problem state, maintained by every operation: the
reserved id 0 exists, every id stored in the registry names an existing
`fromInternal` slot other than 0, and no registry entry is the all-undefined
placeholder (the source never leaves one behind). -/
def ProblemState.WF (s : ProblemState) : Prop :=
  1 ≤ s.fromInternal.length ∧
  ∀ p ∈ s.toInternal,
    entryBounds 1 s.fromInternal.length p.2 ∧ ¬ p.2.allUndefined = true

theorem map1Bounds_mono {lo hi lo2 hi2 : ℕ} {m : Map1} (h : map1Bounds lo hi m)
    (hl : lo2 ≤ lo) (hh : hi ≤ hi2) : map1Bounds lo2 hi2 m := by
  intro e he
  obtain ⟨h1, h2⟩ := h e he
  omega

theorem map2Bounds_mono {lo hi lo2 hi2 : ℕ} {m : Map2} (h : map2Bounds lo hi m)
    (hl : lo2 ≤ lo) (hh : hi ≤ hi2) : map2Bounds lo2 hi2 m :=
  fun e he => map1Bounds_mono (h e he) hl hh

theorem map3Bounds_mono {lo hi lo2 hi2 : ℕ} {m : Map3} (h : map3Bounds lo hi m)
    (hl : lo2 ≤ lo) (hh : hi ≤ hi2) : map3Bounds lo2 hi2 m :=
  fun e he => map2Bounds_mono (h e he) hl hh

theorem entryBounds_mono {lo hi lo2 hi2 : ℕ} {e : ArityEntry} (h : entryBounds lo hi e)
    (hl : lo2 ≤ lo) (hh : hi ≤ hi2) : entryBounds lo2 hi2 e := by
  obtain ⟨h0, h1, h2, h3⟩ := h
  refine ⟨fun id hid => ?_, fun m hm => map1Bounds_mono (h1 m hm) hl hh,
    fun m hm => map2Bounds_mono (h2 m hm) hl hh,
    fun m hm => map3Bounds_mono (h3 m hm) hl hh⟩
  obtain ⟨ha, hb⟩ := h0 id hid
  omega

theorem alookup_mem {m : List (String × α)} {k : String} {v : α}
    (h : alookup k m = some v) : (k, v) ∈ m := by
  induction m with
  | nil => simp [alookup] at h
  | cons e rest ih =>
    unfold alookup at h
    split at h
    · rename_i heq
      cases h
      rw [heq]
      exact List.mem_cons_self _ _
    · exact List.mem_cons_of_mem _ (ih h)

theorem alookup_append_of_some {m : List (String × α)} {k : String} {v : α}
    (rest : List (String × α)) (h : alookup k m = some v) :
    alookup k (m ++ rest) = some v := by
  induction m with
  | nil => simp [alookup] at h
  | cons e t ih =>
    obtain ⟨k2, v2⟩ := e
    rw [List.cons_append]
    unfold alookup at h ⊢
    split at h
    · rename_i heq
      rw [if_pos heq]
      exact h
    · rename_i heq
      rw [if_neg heq]
      exact ih h

theorem alookup_append_of_none {m : List (String × α)} {k : String}
    (rest : List (String × α)) (h : alookup k m = none) :
    alookup k (m ++ rest) = alookup k rest := by
  induction m with
  | nil => rfl
  | cons e t ih =>
    obtain ⟨k2, v2⟩ := e
    rw [List.cons_append]
    have hstep : alookup k ((k2, v2) :: (t ++ rest)) =
        if k = k2 then some v2 else alookup k (t ++ rest) := rfl
    have hstep2 : alookup k ((k2, v2) :: t) =
        if k = k2 then some v2 else alookup k t := rfl
    rw [hstep2] at h
    rw [hstep]
    split at h
    · exact absurd h (by simp)
    · rename_i heq
      rw [if_neg heq]
      exact ih h

theorem aset_of_none {m : List (String × α)} {k : String} (v : α)
    (h : alookup k m = none) : aset k v m = m ++ [(k, v)] := by
  induction m with
  | nil => rfl
  | cons e t ih =>
    obtain ⟨k2, v2⟩ := e
    unfold alookup at h
    unfold aset
    split at h
    · exact absurd h (by simp)
    · rename_i heq
      rw [if_neg heq, ih h, List.cons_append]

theorem jsGet_eq_some {o : Option ℕ} {id : ℕ} (h : jsGet o = some id) : o = some id := by
  unfold jsGet at h
  split at h
  · exact Option.noConfusion h
  · exact h

theorem lookupArity_bounds {e : ArityEntry} {args : List String} {id : ℕ} {lo hi : ℕ}
    (hb : entryBounds lo hi e) (h : lookupArity e args = .ok id) : lo ≤ id ∧ id < hi := by
  obtain ⟨h0, h1, h2, h3⟩ := hb
  match args with
  | [] =>
    simp only [lookupArity] at h
    split at h
    · exact absurd h (by simp)
    · rename_i id2 hj
      cases h
      exact h0 _ (jsGet_eq_some hj)
  | [x] =>
    simp only [lookupArity] at h
    split at h
    · exact absurd h (by simp)
    · rename_i m hm
      split at h
      · exact absurd h (by simp)
      · rename_i id2 hj
        cases h
        exact h1 m hm _ (alookup_mem (jsGet_eq_some hj))
  | [x, y] =>
    simp only [lookupArity] at h
    split at h
    · exact absurd h (by simp)
    · rename_i m hm
      split at h
      · exact absurd h (by simp)
      · rename_i m2 hm2
        split at h
        · exact absurd h (by simp)
        · rename_i id2 hj
          cases h
          exact h2 m hm _ (alookup_mem hm2) _ (alookup_mem (jsGet_eq_some hj))
  | [x, y, z] =>
    simp only [lookupArity] at h
    split at h
    · exact absurd h (by simp)
    · rename_i m hm
      split at h
      · exact absurd h (by simp)
      · rename_i m2 hm2
        split at h
        · exact absurd h (by simp)
        · rename_i m3 hm3
          split at h
          · exact absurd h (by simp)
          · rename_i id2 hj
            cases h
            exact h3 m hm _ (alookup_mem hm2) _ (alookup_mem hm3) _
              (alookup_mem (jsGet_eq_some hj))
  | a :: b :: c :: d :: rest =>
    simp only [lookupArity] at h
    exact absurd h (by simp)

/-- What a run of `mintAll1` does to the state: it only appends names to
`fromInternal`, and every minted id lies between the old and new length. -/
theorem mintAll1_spec (base : String) :
    ∀ (dom : List String) (s : ProblemState),
      (∃ ext, (mintAll1 s base dom).2.fromInternal = s.fromInternal ++ ext) ∧
      (mintAll1 s base dom).2.toInternal = s.toInternal ∧
      (mintAll1 s base dom).2.constraints = s.constraints ∧
      (mintAll1 s base dom).2.rules = s.rules ∧
      (mintAll1 s base dom).2.nonRuleConstraints = s.nonRuleConstraints ∧
      map1Bounds s.fromInternal.length (mintAll1 s base dom).2.fromInternal.length
        (mintAll1 s base dom).1 := by
  intro dom
  induction dom with
  | nil =>
    intro s
    exact ⟨⟨[], by simp [mintAll1]⟩, rfl, rfl, rfl, rfl,
      fun e he => absurd he (List.not_mem_nil e)⟩
  | cons x xs ih =>
    intro s
    obtain ⟨⟨ext, hext⟩, hti, hc, hr, hn, hb⟩ :=
      ih { s with fromInternal := s.fromInternal ++ [base ++ " " ++ x] }
    have hunf : mintAll1 s base (x :: xs) =
        ((x, s.fromInternal.length) ::
            (mintAll1 { s with fromInternal := s.fromInternal ++ [base ++ " " ++ x] }
              base xs).1,
          (mintAll1 { s with fromInternal := s.fromInternal ++ [base ++ " " ++ x] }
            base xs).2) := rfl
    rw [hunf]
    dsimp only at hext hti hc hr hn hb ⊢
    have hfin : (mintAll1 { s with fromInternal := s.fromInternal ++ [base ++ " " ++ x] }
        base xs).2.fromInternal.length = s.fromInternal.length + 1 + ext.length := by
      rw [hext]
      simp only [List.length_append, List.length_cons, List.length_nil]
    refine ⟨⟨[base ++ " " ++ x] ++ ext, by rw [hext, List.append_assoc]⟩,
      hti, hc, hr, hn, ?_⟩
    intro e he
    rcases List.mem_cons.mp he with rfl | hmem
    · refine ⟨le_refl _, ?_⟩
      rw [hfin]
      omega
    · have := hb e hmem
      simp only [List.length_append, List.length_cons, List.length_nil] at this
      omega

/-- What a run of `mintAll2` does to the state. -/
theorem mintAll2_spec (base : String) (dom2 : List String) :
    ∀ (dom : List String) (s : ProblemState),
      (∃ ext, (mintAll2 s base dom2 dom).2.fromInternal = s.fromInternal ++ ext) ∧
      (mintAll2 s base dom2 dom).2.toInternal = s.toInternal ∧
      (mintAll2 s base dom2 dom).2.constraints = s.constraints ∧
      (mintAll2 s base dom2 dom).2.rules = s.rules ∧
      (mintAll2 s base dom2 dom).2.nonRuleConstraints = s.nonRuleConstraints ∧
      map2Bounds s.fromInternal.length (mintAll2 s base dom2 dom).2.fromInternal.length
        (mintAll2 s base dom2 dom).1 := by
  intro dom
  induction dom with
  | nil =>
    intro s
    exact ⟨⟨[], by simp [mintAll2]⟩, rfl, rfl, rfl, rfl,
      fun e he => absurd he (List.not_mem_nil e)⟩
  | cons x xs ih =>
    intro s
    obtain ⟨⟨ext1, hext1⟩, hti1, hc1, hr1, hn1, hb1⟩ :=
      mintAll1_spec (base ++ " " ++ x) dom2 s
    obtain ⟨⟨ext2, hext2⟩, hti2, hc2, hr2, hn2, hb2⟩ :=
      ih (mintAll1 s (base ++ " " ++ x) dom2).2
    have hunf : mintAll2 s base dom2 (x :: xs) =
        ((x, (mintAll1 s (base ++ " " ++ x) dom2).1) ::
            (mintAll2 (mintAll1 s (base ++ " " ++ x) dom2).2 base dom2 xs).1,
          (mintAll2 (mintAll1 s (base ++ " " ++ x) dom2).2 base dom2 xs).2) := rfl
    rw [hunf]
    dsimp only at hext2 hti2 hc2 hr2 hn2 hb2 ⊢
    have hmid : (mintAll1 s (base ++ " " ++ x) dom2).2.fromInternal.length
        = s.fromInternal.length + ext1.length := by
      rw [hext1]
      simp
    have hfin : (mintAll2 (mintAll1 s (base ++ " " ++ x) dom2).2 base dom2 xs).2.fromInternal.length
        = s.fromInternal.length + ext1.length + ext2.length := by
      rw [hext2, hext1]
      simp only [List.length_append]
    constructor
    · exact ⟨ext1 ++ ext2, by rw [hext2, hext1, List.append_assoc]⟩
    refine ⟨by rw [hti2, hti1], by rw [hc2, hc1], by rw [hr2, hr1], by rw [hn2, hn1], ?_⟩
    intro e he
    rcases List.mem_cons.mp he with rfl | hmem
    · dsimp only
      refine map1Bounds_mono hb1 (le_refl _) ?_
      rw [hfin, hmid]
      omega
    · refine map1Bounds_mono (hb2 e hmem) ?_ (le_refl _)
      rw [hmid]
      omega

/-- What a run of `mintAll3` does to the state. -/
theorem mintAll3_spec (base : String) (dom2 dom3 : List String) :
    ∀ (dom : List String) (s : ProblemState),
      (∃ ext, (mintAll3 s base dom2 dom3 dom).2.fromInternal = s.fromInternal ++ ext) ∧
      (mintAll3 s base dom2 dom3 dom).2.toInternal = s.toInternal ∧
      (mintAll3 s base dom2 dom3 dom).2.constraints = s.constraints ∧
      (mintAll3 s base dom2 dom3 dom).2.rules = s.rules ∧
      (mintAll3 s base dom2 dom3 dom).2.nonRuleConstraints = s.nonRuleConstraints ∧
      map3Bounds s.fromInternal.length (mintAll3 s base dom2 dom3 dom).2.fromInternal.length
        (mintAll3 s base dom2 dom3 dom).1 := by
  intro dom
  induction dom with
  | nil =>
    intro s
    exact ⟨⟨[], by simp [mintAll3]⟩, rfl, rfl, rfl, rfl,
      fun e he => absurd he (List.not_mem_nil e)⟩
  | cons x xs ih =>
    intro s
    obtain ⟨⟨ext1, hext1⟩, hti1, hc1, hr1, hn1, hb1⟩ :=
      mintAll2_spec (base ++ " " ++ x) dom2 dom3 s
    obtain ⟨⟨ext2, hext2⟩, hti2, hc2, hr2, hn2, hb2⟩ :=
      ih (mintAll2 s (base ++ " " ++ x) dom3 dom2).2
    have hunf : mintAll3 s base dom2 dom3 (x :: xs) =
        ((x, (mintAll2 s (base ++ " " ++ x) dom3 dom2).1) ::
            (mintAll3 (mintAll2 s (base ++ " " ++ x) dom3 dom2).2 base dom2 dom3 xs).1,
          (mintAll3 (mintAll2 s (base ++ " " ++ x) dom3 dom2).2 base dom2 dom3 xs).2) := rfl
    rw [hunf]
    dsimp only at hext2 hti2 hc2 hr2 hn2 hb2 ⊢
    obtain ⟨⟨ext1b, hext1b⟩, hti1b, hc1b, hr1b, hn1b, hb1b⟩ :=
      mintAll2_spec (base ++ " " ++ x) dom3 dom2 s
    have hmid : (mintAll2 s (base ++ " " ++ x) dom3 dom2).2.fromInternal.length
        = s.fromInternal.length + ext1b.length := by
      rw [hext1b]
      simp
    have hfin : (mintAll3 (mintAll2 s (base ++ " " ++ x) dom3 dom2).2
        base dom2 dom3 xs).2.fromInternal.length
        = s.fromInternal.length + ext1b.length + ext2.length := by
      rw [hext2, hext1b]
      simp only [List.length_append]
    constructor
    · exact ⟨ext1b ++ ext2, by rw [hext2, hext1b, List.append_assoc]⟩
    refine ⟨by rw [hti2, hti1b], by rw [hc2, hc1b], by rw [hr2, hr1b], by rw [hn2, hn1b], ?_⟩
    intro e he
    rcases List.mem_cons.mp he with rfl | hmem
    · dsimp only
      refine map2Bounds_mono hb1b (le_refl _) ?_
      rw [hfin, hmid]
      omega
    · refine map2Bounds_mono (hb2 e hmem) ?_ (le_refl _)
      rw [hmid]
      omega

theorem ProblemState.ext_eq {s1 s2 : ProblemState}
    (h1 : s1.fromInternal = s2.fromInternal) (h2 : s1.toInternal = s2.toInternal)
    (h3 : s1.constraints = s2.constraints) (h4 : s1.rules = s2.rules)
    (h5 : s1.nonRuleConstraints = s2.nonRuleConstraints) : s1 = s2 := by
  cases s1
  cases s2
  simp only at h1 h2 h3 h4 h5
  simp [h1, h2, h3, h4, h5]

/-- What a successful `attributeCore` run produces: the registry gains one
entry under the declared name whose ids are exactly the freshly appended
`fromInternal` slots. -/
theorem attributeCore_spec (s : ProblemState) (name : String) (args : List (List String)) :
    ∃ entry ext,
      s.attributeCore name args =
        ({ s with
            toInternal := aset name entry s.toInternal
            fromInternal := s.fromInternal ++ ext }, none) ∧
      entryBounds s.fromInternal.length (s.fromInternal ++ ext).length entry ∧
      ¬ entry.allUndefined = true := by
  match args with
  | [] =>
    refine ⟨⟨some s.fromInternal.length, none, none, none⟩, [name], rfl, ?_, by
      simp [ArityEntry.allUndefined]⟩
    refine ⟨fun id hid => ?_, fun m hm => Option.noConfusion hm,
      fun m hm => Option.noConfusion hm, fun m hm => Option.noConfusion hm⟩
    cases hid
    simp
  | [d1] =>
    obtain ⟨⟨ext, hext⟩, hti, hc, hr, hn, hb⟩ := mintAll1_spec name d1 s
    refine ⟨⟨none, some (mintAll1 s name d1).1, none, none⟩, ext, ?_, ?_, by
      simp [ArityEntry.allUndefined]⟩
    · show ({ (mintAll1 s name d1).2 with
          toInternal := aset name ⟨none, some (mintAll1 s name d1).1, none, none⟩
            ((mintAll1 s name d1).2).toInternal }, none) = _
      rw [show ({ (mintAll1 s name d1).2 with
          toInternal := aset name ⟨none, some (mintAll1 s name d1).1, none, none⟩
            ((mintAll1 s name d1).2).toInternal } : ProblemState) =
          { s with
              toInternal := aset name ⟨none, some (mintAll1 s name d1).1, none, none⟩
                s.toInternal
              fromInternal := s.fromInternal ++ ext } from
        ProblemState.ext_eq hext (by rw [hti]) hc hr hn]
    · refine ⟨fun id hid => Option.noConfusion hid, fun m hm => ?_,
        fun m hm => Option.noConfusion hm, fun m hm => Option.noConfusion hm⟩
      cases hm
      rw [show (s.fromInternal ++ ext).length = (mintAll1 s name d1).2.fromInternal.length by
        rw [hext]]
      exact hb
  | [d1, d2] =>
    obtain ⟨⟨ext, hext⟩, hti, hc, hr, hn, hb⟩ := mintAll2_spec name d2 d1 s
    refine ⟨⟨none, none, some (mintAll2 s name d2 d1).1, none⟩, ext, ?_, ?_, by
      simp [ArityEntry.allUndefined]⟩
    · show ({ (mintAll2 s name d2 d1).2 with
          toInternal := aset name ⟨none, none, some (mintAll2 s name d2 d1).1, none⟩
            ((mintAll2 s name d2 d1).2).toInternal }, none) = _
      rw [show ({ (mintAll2 s name d2 d1).2 with
          toInternal := aset name ⟨none, none, some (mintAll2 s name d2 d1).1, none⟩
            ((mintAll2 s name d2 d1).2).toInternal } : ProblemState) =
          { s with
              toInternal := aset name ⟨none, none, some (mintAll2 s name d2 d1).1, none⟩
                s.toInternal
              fromInternal := s.fromInternal ++ ext } from
        ProblemState.ext_eq hext (by rw [hti]) hc hr hn]
    · refine ⟨fun id hid => Option.noConfusion hid, fun m hm => Option.noConfusion hm,
        fun m hm => ?_, fun m hm => Option.noConfusion hm⟩
      cases hm
      rw [show (s.fromInternal ++ ext).length = (mintAll2 s name d2 d1).2.fromInternal.length by
        rw [hext]]
      exact hb
  | d1 :: d2 :: d3 :: rest =>
    obtain ⟨⟨ext, hext⟩, hti, hc, hr, hn, hb⟩ := mintAll3_spec name d2 d3 d1 s
    refine ⟨⟨none, none, none, some (mintAll3 s name d2 d3 d1).1⟩, ext, ?_, ?_, by
      simp [ArityEntry.allUndefined]⟩
    · show ({ (mintAll3 s name d2 d3 d1).2 with
          toInternal := aset name ⟨none, none, none, some (mintAll3 s name d2 d3 d1).1⟩
            ((mintAll3 s name d2 d3 d1).2).toInternal }, none) = _
      rw [show ({ (mintAll3 s name d2 d3 d1).2 with
          toInternal := aset name ⟨none, none, none, some (mintAll3 s name d2 d3 d1).1⟩
            ((mintAll3 s name d2 d3 d1).2).toInternal } : ProblemState) =
          { s with
              toInternal := aset name ⟨none, none, none, some (mintAll3 s name d2 d3 d1).1⟩
                s.toInternal
              fromInternal := s.fromInternal ++ ext } from
        ProblemState.ext_eq hext (by rw [hti]) hc hr hn]
    · refine ⟨fun id hid => Option.noConfusion hid, fun m hm => Option.noConfusion hm,
        fun m hm => Option.noConfusion hm, fun m hm => ?_⟩
      cases hm
      rw [show (s.fromInternal ++ ext).length
          = (mintAll3 s name d2 d3 d1).2.fromInternal.length by rw [hext]]
      exact hb

/-- Decompose a successful textual lookup into its split, the predicate
entry found, and the arity dispatch. -/
theorem lookup_ok_extract {attr : String} {m : AttributeMap} {id : ℕ}
    (h : lookupAttributeInMap attr m = .ok id) :
    ∃ pred args entry, splitOnSpaces attr = pred :: args ∧
      alookup pred m = some entry ∧ ¬ entry.allUndefined = true ∧
      lookupArity entry args = .ok id := by
  unfold lookupAttributeInMap at h
  rcases hsp : splitOnSpaces attr with _ | ⟨pred, args⟩
  · rw [hsp] at h
    exact absurd h (by simp [lookupParts])
  · rw [hsp] at h
    unfold lookupParts at h
    dsimp only at h
    by_cases hident : isIdent pred = true
    · rw [if_neg (by simp [hident])] at h
      by_cases hargs : (args.any fun arg => ¬ isIdent arg = true) = true
      · rw [if_pos hargs] at h
        exact absurd h (by simp)
      · rw [if_neg hargs] at h
        rcases hae : alookup pred m with _ | entry
        · rw [hae] at h
          exact absurd h (by simp)
        · rw [hae] at h
          dsimp only at h
          by_cases hau : entry.allUndefined = true
          · rw [if_pos hau] at h
            exact absurd h (by simp)
          · rw [if_neg hau] at h
            exact ⟨pred, args, entry, rfl, hae, hau, h⟩
    · rw [if_pos (by simp [hident])] at h
      exact absurd h (by simp)

/-- A successful lookup under a well-formed state yields an id naming an
existing, non-reserved slot. -/
theorem lookupAttributeInMap_bounds {s : ProblemState} {attr : String} {id : ℕ}
    (hwf : s.WF) (h : lookupAttributeInMap attr s.toInternal = .ok id) :
    1 ≤ id ∧ id < s.fromInternal.length := by
  obtain ⟨pred, args, entry, hsp, hae, hau, hla⟩ := lookup_ok_extract h
  exact lookupArity_bounds (hwf.2 ⟨pred, entry⟩ (alookup_mem hae)).1 hla

/-- The result of a textual lookup depends only on the association of the
attribute's own predicate. -/
theorem lookupAttributeInMap_congr {attr : String} {m1 m2 : AttributeMap}
    (h : ∀ pred args, splitOnSpaces attr = pred :: args →
      alookup pred m1 = alookup pred m2) :
    lookupAttributeInMap attr m1 = lookupAttributeInMap attr m2 := by
  unfold lookupAttributeInMap
  rcases hsp : splitOnSpaces attr with _ | ⟨pred, args⟩
  · rfl
  · unfold lookupParts
    dsimp only
    rw [h pred args hsp]

/-- Monotone evolution of the registry between two states: the id-name
vector is only appended to, every resolvable attribute keeps its id, and
any newly resolvable attribute gets an id at or past the old length. -/
def extendsState (s s2 : ProblemState) : Prop :=
  (∃ ext, s2.fromInternal = s.fromInternal ++ ext) ∧
  (∀ attr id, lookupAttributeInMap attr s.toInternal = .ok id →
      lookupAttributeInMap attr s2.toInternal = .ok id) ∧
  (∀ attr id e, lookupAttributeInMap attr s.toInternal = .error e →
      lookupAttributeInMap attr s2.toInternal = .ok id →
      s.fromInternal.length ≤ id)

theorem extendsState_refl (s : ProblemState) : extendsState s s := by
  refine ⟨⟨[], by simp⟩, fun _ _ h => h, fun attr id e he hok => ?_⟩
  rw [he] at hok
  exact Except.noConfusion hok

theorem extendsState_trans {s1 s2 s3 : ProblemState}
    (h12 : extendsState s1 s2) (h23 : extendsState s2 s3) : extendsState s1 s3 := by
  obtain ⟨⟨e1, he1⟩, st12, nw12⟩ := h12
  obtain ⟨⟨e2, he2⟩, st23, nw23⟩ := h23
  refine ⟨⟨e1 ++ e2, by rw [he2, he1, List.append_assoc]⟩,
    fun attr id h => st23 _ _ (st12 _ _ h), ?_⟩
  intro attr id e herr hok
  rcases h2 : lookupAttributeInMap attr s2.toInternal with e2' | id2
  · have hge := nw23 attr id e2' h2 hok
    have hlen : s1.fromInternal.length ≤ s2.fromInternal.length := by
      rw [he1]
      simp
    omega
  · have hid2 := nw12 attr id2 e herr h2
    have hok2 := st23 attr id2 h2
    rw [hok] at hok2
    cases hok2
    exact hid2

theorem extendsState_of_registry {s s2 : ProblemState}
    (ht : s2.toInternal = s.toInternal)
    (hf : ∃ ext, s2.fromInternal = s.fromInternal ++ ext) : extendsState s s2 := by
  refine ⟨hf, fun attr id h => by rw [ht]; exact h, fun attr id e he hok => ?_⟩
  rw [ht, he] at hok
  exact Except.noConfusion hok

theorem WF_of_registry {s s2 : ProblemState} (hwf : s.WF)
    (ht : s2.toInternal = s.toInternal)
    (hf : ∃ ext, s2.fromInternal = s.fromInternal ++ ext) : s2.WF := by
  obtain ⟨ext, hext⟩ := hf
  constructor
  · rw [hext]
    simp only [List.length_append]
    have := hwf.1
    omega
  · intro p hp
    rw [ht] at hp
    obtain ⟨hb, hu⟩ := hwf.2 p hp
    refine ⟨entryBounds_mono hb (le_refl _) ?_, hu⟩
    rw [hext]
    simp

theorem quantify_registry (s : ProblemState) (mn mx : ℚ) (props : List String) :
    ((s.quantify mn mx props).1).toInternal = s.toInternal ∧
      ((s.quantify mn mx props).1).fromInternal = s.fromInternal := by
  unfold ProblemState.quantify
  split
  · exact ⟨rfl, rfl⟩
  · split
    · exact ⟨rfl, rfl⟩
    · split
      · exact ⟨rfl, rfl⟩
      · exact ⟨reset_toInternal s, reset_fromInternal s⟩

theorem all_registry (s : ProblemState) (props : List String) :
    ((s.all props).1).toInternal = s.toInternal ∧
      ((s.all props).1).fromInternal = s.fromInternal := by
  unfold ProblemState.all
  split
  · exact ⟨rfl, rfl⟩
  · exact quantify_registry s _ _ _

theorem implies_registry (s : ProblemState) (premises : List String) (conclusion : String) :
    ((s.implies premises conclusion).1).toInternal = s.toInternal ∧
      ((s.implies premises conclusion).1).fromInternal = s.fromInternal := by
  unfold ProblemState.implies
  split
  · exact ⟨rfl, rfl⟩
  · split
    · exact ⟨rfl, rfl⟩
    · exact ⟨reset_toInternal s, reset_fromInternal s⟩

theorem iff_registry (s : ProblemState) (prems : List Int) (conc : Int) :
    ((s.iff prems conc)).toInternal = s.toInternal ∧
      ((s.iff prems conc)).fromInternal = s.fromInternal :=
  ⟨rfl, rfl⟩

theorem equal_registry (s : ProblemState) (a b : List String) :
    ((s.equal a b).1).toInternal = s.toInternal ∧
      (((s.equal a b).1).fromInternal = s.fromInternal ∨
        ((s.equal a b).1).fromInternal = s.fromInternal ++ [""]) := by
  unfold ProblemState.equal
  split
  · exact ⟨rfl, Or.inl rfl⟩
  · split
    · exact ⟨(all_registry s b).1, Or.inl (all_registry s b).2⟩
    · split
      · exact ⟨(all_registry s a).1, Or.inl (all_registry s a).2⟩
      · dsimp only
        split
        · split
          · split
            · exact ⟨reset_toInternal s, Or.inl (reset_fromInternal s)⟩
            · split
              · exact ⟨reset_toInternal s, Or.inl (reset_fromInternal s)⟩
              · exact ⟨reset_toInternal s, Or.inl (reset_fromInternal s)⟩
          · split
            · exact ⟨reset_toInternal s, Or.inl (reset_fromInternal s)⟩
            · split
              · exact ⟨reset_toInternal s, Or.inl (reset_fromInternal s)⟩
              · exact ⟨reset_toInternal s, Or.inl (reset_fromInternal s)⟩
        · split
          · split
            · exact ⟨reset_toInternal s, Or.inl (reset_fromInternal s)⟩
            · split
              · exact ⟨reset_toInternal s, Or.inl (reset_fromInternal s)⟩
              · exact ⟨reset_toInternal s, Or.inl (reset_fromInternal s)⟩
          · split
            · refine ⟨reset_toInternal s, Or.inr ?_⟩
              rw [show ((s.reset).generate "").2.fromInternal
                  = (s.reset).fromInternal ++ [""] from rfl, reset_fromInternal]
            · split
              · refine ⟨reset_toInternal s, Or.inr ?_⟩
                rw [show ((s.reset).generate "").2.fromInternal
                    = (s.reset).fromInternal ++ [""] from rfl, reset_fromInternal]
              · refine ⟨reset_toInternal s, Or.inr ?_⟩
                rw [show (((((s.reset).generate "").2).iff _ _).iff _ _).fromInternal
                    = ((s.reset).generate "").2.fromInternal from rfl]
                rw [show ((s.reset).generate "").2.fromInternal
                    = (s.reset).fromInternal ++ [""] from rfl, reset_fromInternal]

theorem rule_registry (s : ProblemState) (conclusion : String) (premises : List String) :
    ((s.rule conclusion premises).1).toInternal = s.toInternal ∧
      (((s.rule conclusion premises).1).fromInternal = s.fromInternal ∨
        ((s.rule conclusion premises).1).fromInternal = s.fromInternal ++ [""]) := by
  unfold ProblemState.rule
  split
  · exact ⟨rfl, Or.inl rfl⟩
  · split
    · exact ⟨rfl, Or.inl rfl⟩
    · split
      · exact ⟨rfl, Or.inl rfl⟩
      · split
        · rename_i s1 e hstep
          have himp := implies_registry s premises conclusion
          rw [hstep] at himp
          exact ⟨himp.1, Or.inl himp.2⟩
        · rename_i s1 hstep
          have himp := implies_registry s premises conclusion
          rw [hstep] at himp
          split
          · exact ⟨himp.1, Or.inl himp.2⟩
          · split
            · exact ⟨himp.1, Or.inl himp.2⟩
            · refine ⟨himp.1, Or.inr ?_⟩
              rw [show (((s1.generate "").2).iff _ _).fromInternal
                  = (s1.generate "").2.fromInternal from rfl]
              rw [show (s1.generate "").2.fromInternal = s1.fromInternal ++ [""] from rfl,
                himp.2]

theorem alookup_singleton {pred name : String} {entry entry3 : ArityEntry}
    (h : alookup pred [(name, entry)] = some entry3) : pred = name ∧ entry3 = entry := by
  unfold alookup at h
  split at h
  · rename_i heq
    cases h
    exact ⟨heq, rfl⟩
  · exact absurd h (by simp [alookup])

/-- Declaring an attribute preserves well-formedness and extends the
registry monotonically: previously resolvable attributes keep their ids,
and everything newly resolvable gets a fresh id. -/
theorem attribute_evolution {s : ProblemState} {name : String} {args : List (List String)}
    (hwf : s.WF) :
    ((s.attribute name args).1).WF ∧ extendsState s ((s.attribute name args).1) := by
  unfold ProblemState.attribute
  dsimp only
  split
  · exact ⟨hwf, extendsState_refl s⟩
  · split
    · exact ⟨hwf, extendsState_refl s⟩
    · split
      · exact ⟨hwf, extendsState_refl s⟩
      · split
        · rename_i entry hae
          split
          · rename_i hau
            exact absurd hau (by
              have := (hwf.2 ⟨name, entry⟩ (alookup_mem hae)).2
              simpa using this)
          · exact ⟨hwf, extendsState_refl s⟩
        · rename_i hae
          obtain ⟨entry, ext, hcore, hbounds, hau⟩ := attributeCore_spec s name args
          rw [hcore]
          dsimp only
          have hset : aset name entry s.toInternal = s.toInternal ++ [(name, entry)] :=
            aset_of_none entry hae
          constructor
          · constructor
            · simp only [List.length_append]
              have := hwf.1
              omega
            · intro p hp
              dsimp only at hp
              rw [hset] at hp
              rcases List.mem_append.mp hp with hp | hp
              · obtain ⟨hb, hu⟩ := hwf.2 p hp
                exact ⟨entryBounds_mono hb (le_refl _) (by simp), hu⟩
              · simp only [List.mem_singleton] at hp
                subst hp
                exact ⟨entryBounds_mono hbounds hwf.1 (le_refl _), by simpa using hau⟩
          · refine ⟨⟨ext, rfl⟩, ?_, ?_⟩
            · intro attr id hok
              obtain ⟨pred, argsx, entry2, hsp, hae2, hau2, hla⟩ := lookup_ok_extract hok
              have hcongr : lookupAttributeInMap attr (aset name entry s.toInternal)
                  = lookupAttributeInMap attr s.toInternal := by
                refine lookupAttributeInMap_congr ?_
                intro pred2 args2 hsp2
                rw [hsp] at hsp2
                injection hsp2 with h1 h2
                subst h1
                rw [hset, alookup_append_of_some _ hae2, hae2]
              show lookupAttributeInMap attr (aset name entry s.toInternal) = .ok id
              rw [hcongr]
              exact hok
            · intro attr id e herr hok
              have hok2 : lookupAttributeInMap attr (aset name entry s.toInternal)
                  = .ok id := hok
              obtain ⟨pred, argsx, entry3, hsp, hae3, hau3, hla⟩ := lookup_ok_extract hok2
              rcases hao : alookup pred s.toInternal with _ | entry2
              · rw [hset, alookup_append_of_none _ hao] at hae3
                obtain ⟨rfl, rfl⟩ := alookup_singleton hae3
                exact (lookupArity_bounds hbounds hla).1
              · have hcongr : lookupAttributeInMap attr (aset name entry s.toInternal)
                    = lookupAttributeInMap attr s.toInternal := by
                  refine lookupAttributeInMap_congr ?_
                  intro pred2 args2 hsp2
                  rw [hsp] at hsp2
                  injection hsp2 with h1 h2
                  subst h1
                  rw [hset, alookup_append_of_some _ hao, hao]
                rw [hcongr, herr] at hok2
                exact absurd hok2 (by simp)

/-- One public operation preserves well-formedness and evolves the
registry monotonically. -/
theorem op_evolution (op : Op) {s : ProblemState} (hwf : s.WF) :
    ((op.apply s).1).WF ∧ extendsState s ((op.apply s).1) := by
  cases op with
  | attributeOp name args => exact attribute_evolution hwf
  | solveOp =>
    have ht : (applyCompletion s).toInternal = s.toInternal := by
      unfold applyCompletion
      split <;> rfl
    have hf : (applyCompletion s).fromInternal = s.fromInternal := by
      unfold applyCompletion
      split <;> rfl
    exact ⟨WF_of_registry hwf ht ⟨[], by simp only [List.append_nil]; exact hf⟩,
      extendsState_of_registry ht ⟨[], by simp only [List.append_nil]; exact hf⟩⟩
  | quantifyOp mn mx props =>
    obtain ⟨ht, hf⟩ := quantify_registry s mn mx props
    exact ⟨WF_of_registry hwf ht ⟨[], by simp only [List.append_nil]; exact hf⟩,
      extendsState_of_registry ht ⟨[], by simp only [List.append_nil]; exact hf⟩⟩
  | exactlyOp n props =>
    have h2 : (Op.exactlyOp n props).apply s = s.exactly n props := rfl
    rw [h2]
    unfold ProblemState.exactly
    split
    · exact ⟨hwf, extendsState_refl s⟩
    · split
      · exact ⟨hwf, extendsState_refl s⟩
      · obtain ⟨ht, hf⟩ := quantify_registry s n n props
        exact ⟨WF_of_registry hwf ht ⟨[], by simp only [List.append_nil]; exact hf⟩,
          extendsState_of_registry ht ⟨[], by simp only [List.append_nil]; exact hf⟩⟩
  | allOp props =>
    obtain ⟨ht, hf⟩ := all_registry s props
    exact ⟨WF_of_registry hwf ht ⟨[], by simp only [List.append_nil]; exact hf⟩,
      extendsState_of_registry ht ⟨[], by simp only [List.append_nil]; exact hf⟩⟩
  | atLeastOp mn props =>
    have h2 : (Op.atLeastOp mn props).apply s = s.atLeast mn props := rfl
    rw [h2]
    unfold ProblemState.atLeast
    split
    · exact ⟨hwf, extendsState_refl s⟩
    · split
      · exact ⟨hwf, extendsState_refl s⟩
      · obtain ⟨ht, hf⟩ := quantify_registry s mn (props.length : ℚ) props
        exact ⟨WF_of_registry hwf ht ⟨[], by simp only [List.append_nil]; exact hf⟩,
          extendsState_of_registry ht ⟨[], by simp only [List.append_nil]; exact hf⟩⟩
  | atMostOp mx props =>
    have h2 : (Op.atMostOp mx props).apply s = s.atMost mx props := rfl
    rw [h2]
    unfold ProblemState.atMost
    split
    · exact ⟨hwf, extendsState_refl s⟩
    · split
      · exact ⟨hwf, extendsState_refl s⟩
      · obtain ⟨ht, hf⟩ := quantify_registry s 0 mx props
        exact ⟨WF_of_registry hwf ht ⟨[], by simp only [List.append_nil]; exact hf⟩,
          extendsState_of_registry ht ⟨[], by simp only [List.append_nil]; exact hf⟩⟩
  | uniqueOp props =>
    have h2 : (Op.uniqueOp props).apply s = s.unique props := rfl
    rw [h2]
    unfold ProblemState.unique
    split
    · exact ⟨hwf, extendsState_refl s⟩
    · obtain ⟨ht, hf⟩ := quantify_registry s 1 1 props
      exact ⟨WF_of_registry hwf ht ⟨[], by simp only [List.append_nil]; exact hf⟩,
        extendsState_of_registry ht ⟨[], by simp only [List.append_nil]; exact hf⟩⟩
  | inconsistentOp a b =>
    have h2 : (Op.inconsistentOp a b).apply s = s.atMost 1 [a, b] := rfl
    rw [h2]
    unfold ProblemState.atMost
    split
    · exact ⟨hwf, extendsState_refl s⟩
    · split
      · exact ⟨hwf, extendsState_refl s⟩
      · obtain ⟨ht, hf⟩ := quantify_registry s 0 1 [a, b]
        exact ⟨WF_of_registry hwf ht ⟨[], by simp only [List.append_nil]; exact hf⟩,
          extendsState_of_registry ht ⟨[], by simp only [List.append_nil]; exact hf⟩⟩
  | impliesOp premises conclusion =>
    obtain ⟨ht, hf⟩ := implies_registry s premises conclusion
    exact ⟨WF_of_registry hwf ht ⟨[], by simp only [List.append_nil]; exact hf⟩,
      extendsState_of_registry ht ⟨[], by simp only [List.append_nil]; exact hf⟩⟩
  | equalOp a b =>
    obtain ⟨ht, hf⟩ := equal_registry s a b
    rcases hf with hf | hf
    · exact ⟨WF_of_registry hwf ht ⟨[], by simp only [List.append_nil]; exact hf⟩,
        extendsState_of_registry ht ⟨[], by simp only [List.append_nil]; exact hf⟩⟩
    · exact ⟨WF_of_registry hwf ht ⟨[""], hf⟩,
        extendsState_of_registry ht ⟨[""], hf⟩⟩
  | assertOp p =>
    obtain ⟨ht, hf⟩ := all_registry s [p]
    exact ⟨WF_of_registry hwf ht ⟨[], by simp only [List.append_nil]; exact hf⟩,
      extendsState_of_registry ht ⟨[], by simp only [List.append_nil]; exact hf⟩⟩
  | ruleOp conclusion premises =>
    obtain ⟨ht, hf⟩ := rule_registry s conclusion premises
    rcases hf with hf | hf
    · exact ⟨WF_of_registry hwf ht ⟨[], by simp only [List.append_nil]; exact hf⟩,
        extendsState_of_registry ht ⟨[], by simp only [List.append_nil]; exact hf⟩⟩
    · exact ⟨WF_of_registry hwf ht ⟨[""], hf⟩,
        extendsState_of_registry ht ⟨[""], hf⟩⟩

/-- Preservation and monotone extension along any operation sequence. -/
theorem applyOps_evolution (ops : List Op) :
    ∀ s : ProblemState, s.WF → (applyOps ops s).WF ∧ extendsState s (applyOps ops s) := by
  induction ops with
  | nil => exact fun s hwf => ⟨hwf, extendsState_refl s⟩
  | cons op ops ih =>
    intro s hwf
    obtain ⟨hwf2, hext2⟩ := op_evolution op hwf
    obtain ⟨hwf3, hext3⟩ := ih _ hwf2
    exact ⟨hwf3, extendsState_trans hext2 hext3⟩

/-- Core of the stale-lookup property, for any snapshot state and any
assignment of the snapshot length: resolution against the evolved registry
either finds an id that already existed — and `lookup` returns its value —
or a fresh id — and `lookup` throws. -/
theorem stale_lookup_core (s0 : ProblemState) (ops : List Op) (A : List Bool)
    (attr : String) (id : ℕ)
    (hwf : s0.WF)
    (hA : A.length = s0.fromInternal.length)
    (hok : lookupAttributeInMap attr ((applyOps ops s0).toInternal) = .ok id) :
    (lookupAttributeInMap attr s0.toInternal = .ok id ∧ id < A.length ∧
      Solution.lookupVal ⟨A, s0.fromInternal⟩ ((applyOps ops s0).toInternal) attr
        = .ok (A.getD id false))
    ∨ ((∃ e, lookupAttributeInMap attr s0.toInternal = .error e) ∧ A.length ≤ id ∧
      (∃ e, Solution.lookupVal ⟨A, s0.fromInternal⟩ ((applyOps ops s0).toInternal) attr
        = .error e)) := by
  obtain ⟨hwf2, ⟨ext, hext⟩, hstab, hnew⟩ := applyOps_evolution ops s0 hwf
  rcases h0 : lookupAttributeInMap attr s0.toInternal with e0 | id0
  · right
    have hge := hnew attr id e0 h0 hok
    refine ⟨⟨e0, rfl⟩, by omega, ?_⟩
    unfold Solution.lookupVal
    rw [hok]
    dsimp only
    rw [if_pos (by omega)]
    exact ⟨_, rfl⟩
  · left
    have hok2 := hstab attr id0 h0
    rw [hok] at hok2
    injection hok2 with hid
    subst hid
    have hb := lookupAttributeInMap_bounds hwf h0
    refine ⟨rfl, by omega, ?_⟩
    unfold Solution.lookupVal
    rw [hok]
    dsimp only
    rw [if_neg (by omega)]

/-! ## Claim C7 -/

/-- C7.  Stale `Solution.lookup`: a solution returned by `solve()` reads
the boolean value of every attribute whose id existed when it was
produced, and throws for every declared attribute whose id was minted
later — even after further operations mutate the problem and `solve()`
runs again.  The solution resolves attributes against the problem's live
registry, so the statement quantifies over any later operation sequence. -/
theorem claim_C7_stale_solution_lookup (s0 : ProblemState) (rng : RNG) (ops : List Op)
    (A : List Bool) (attr : String) (id : ℕ)
    (hwf : s0.WF) (hrng : validRNG rng)
    (hrun : (s0.solve rng).1 = .ok A)
    (hok : lookupAttributeInMap attr
      ((applyOps ops ((s0.solve rng).2)).toInternal) = .ok id) :
    (lookupAttributeInMap attr ((s0.solve rng).2).toInternal = .ok id ∧ id < A.length ∧
      Solution.lookupVal ⟨A, ((s0.solve rng).2).fromInternal⟩
        ((applyOps ops ((s0.solve rng).2)).toInternal) attr = .ok (A.getD id false))
    ∨ ((∃ e, lookupAttributeInMap attr ((s0.solve rng).2).toInternal = .error e) ∧
      A.length ≤ id ∧
      (∃ e, Solution.lookupVal ⟨A, ((s0.solve rng).2).fromInternal⟩
        ((applyOps ops ((s0.solve rng).2)).toInternal) attr = .error e)) := by
  have hne : s0.fromInternal ≠ [] := by
    intro hnil
    have := hwf.1
    rw [hnil] at this
    simp at this
  have haux := solve_sound_aux (fun n => (hrng n).1) hne hrun
  have hs1 : (s0.solve rng).2 = applyCompletion s0 := rfl
  have hwf1 : ((s0.solve rng).2).WF := by
    rw [hs1]
    exact (op_evolution Op.solveOp hwf).1
  have hA : A.length = ((s0.solve rng).2).fromInternal.length := by
    rw [hs1]
    exact haux.2.1
  exact stale_lookup_core ((s0.solve rng).2) ops A attr id hwf1 hA hok


/-- Witness for C7: solve the one-attribute problem, then declare `q`;
looking up `q` on the old solution throws because the id 2 was minted after
the snapshot of length 2. -/
theorem claim_C7_stale_solution_lookup_witness :
    (lookupAttributeInMap "q" ((problemP.solve ⟨fun _ => 0, 0⟩).2).toInternal
        = .ok 2 ∧ 2 < ([true, false] : List Bool).length ∧
      Solution.lookupVal ⟨[true, false], ((problemP.solve ⟨fun _ => 0, 0⟩).2).fromInternal⟩
        ((applyOps [.attributeOp "q" []] ((problemP.solve ⟨fun _ => 0, 0⟩).2)).toInternal)
        "q" = .ok (([true, false] : List Bool).getD 2 false))
    ∨ ((∃ e, lookupAttributeInMap "q" ((problemP.solve ⟨fun _ => 0, 0⟩).2).toInternal
        = .error e) ∧
      ([true, false] : List Bool).length ≤ 2 ∧
      (∃ e, Solution.lookupVal
        ⟨[true, false], ((problemP.solve ⟨fun _ => 0, 0⟩).2).fromInternal⟩
        ((applyOps [.attributeOp "q" []] ((problemP.solve ⟨fun _ => 0, 0⟩).2)).toInternal)
        "q" = .error e)) := by
  refine claim_C7_stale_solution_lookup problemP ⟨fun _ => 0, 0⟩ [.attributeOp "q" []]
    [true, false] "q" 2 ?_ (fun _ => ⟨le_refl 0, by norm_num⟩) (by decide) (by decide)
  constructor
  · decide
  · intro p hp
    have hti : problemP.toInternal = [("p", ⟨some 1, none, none, none⟩)] := by decide
    rw [hti] at hp
    simp only [List.mem_singleton] at hp
    subst hp
    refine ⟨⟨fun id hid => ?_, fun m hm => Option.noConfusion hm,
      fun m hm => Option.noConfusion hm, fun m hm => Option.noConfusion hm⟩, by decide⟩
    cases hid
    have hlen : problemP.fromInternal.length = 2 := by decide
    rw [hlen]
    omega

end BatSAT
